import Mathlib

/-!
Verification of the splink graph-clustering and parameter-estimation core.

Shallow embedding of:
* `splink/internals/estimate_u.py` — the sampling-size formulas of
  `estimate_u_values` (Python floats are modelled as real numbers; a Python
  float division that can raise `ZeroDivisionError` is modelled as an
  `Option` with an explicit test of the denominator, `none` = the raise);
* `splink/comparison_creator.py` — configured m/u probability assignment of
  `ComparisonCreator.get_configured_comparison_levels`;
* `splink/internals/connected_components.py` — the iterative SQL
  connected-components solver (tables modelled as `Finset`s of rows, each
  SQL step as a function between them).
-/

namespace Splink

/-- Link types consumed by `estimate_u_values` (`settings_obj._link_type`). -/
inductive LinkType where
  | dedupe_only
  | link_and_dedupe
  | link_only
deriving DecidableEq

/-- `_rows_needed_for_n_pairs` (estimate_u.py lines 34-40):
`sample_rows = 0.5 * ((8 * n_pairs + 1) ** 0.5 + 1)`. -/
noncomputable def _rows_needed_for_n_pairs (n_pairs : ℝ) : ℝ :=
  0.5 * (Real.sqrt (8 * n_pairs + 1) + 1)

/-- `_proportion_sample_size_link_only` (estimate_u.py lines 43-60).
Returns `none` exactly when Python's float division
`max_pairs / total_links` would raise `ZeroDivisionError`; the source has no
zero guard, so the test here models the raise, not a recovery. -/
noncomputable def _proportion_sample_size_link_only
    (row_counts_individual_dfs : List ℝ) (max_pairs : ℝ) : Option (ℝ × ℝ) :=
  let total_links : ℝ :=
    (row_counts_individual_dfs.sum ^ 2
      - (row_counts_individual_dfs.map (fun c => c ^ 2)).sum) / 2
  let total_nodes := row_counts_individual_dfs.sum
  if total_links = 0 then none
  else
    let proportion := Real.sqrt (max_pairs / total_links)
    some (proportion, proportion * total_nodes)

/-- The sampling-size computation of `estimate_u_values` (estimate_u.py lines
84-115), before clamping: `(proportion, sample_size, total_nodes)`, or `none`
where the Python code raises `ZeroDivisionError`.  `frame_counts` are the
per-source-dataset row counts read back from the database; the dedupe link
types use only their total, matching `count(*)` over the concatenated input. -/
noncomputable def estimate_u_raw_plan (link_type : LinkType)
    (frame_counts : List ℝ) (max_pairs : ℝ) : Option (ℝ × ℝ × ℝ) :=
  match link_type with
  | .dedupe_only | .link_and_dedupe =>
    let total_nodes := frame_counts.sum
    let sample_size := _rows_needed_for_n_pairs max_pairs
    if total_nodes = 0 then none
    else some (sample_size / total_nodes, sample_size, total_nodes)
  | .link_only =>
    match _proportion_sample_size_link_only frame_counts max_pairs with
    | none => none
    | some (proportion, sample_size) =>
      some (proportion, sample_size, frame_counts.sum)

/-- The clamping step of `estimate_u_values` (estimate_u.py lines 117-121):
`if proportion >= 1.0: proportion = 1.0` and
`if sample_size > total_nodes: sample_size = total_nodes`. -/
noncomputable def estimate_u_clamp (proportion sample_size total_nodes : ℝ) :
    ℝ × ℝ :=
  (if 1 ≤ proportion then 1 else proportion,
   if total_nodes < sample_size then total_nodes else sample_size)

/-- Full sampling plan of `estimate_u_values`: raw computation then clamping. -/
noncomputable def estimate_u_sample_plan (link_type : LinkType)
    (frame_counts : List ℝ) (max_pairs : ℝ) : Option (ℝ × ℝ) :=
  (estimate_u_raw_plan link_type frame_counts max_pairs).map
    (fun x => estimate_u_clamp x.1 x.2.1 x.2.2)

/-- Modelled from the spec: the dialect-specific `_random_sample_sql` is not
under src/; per the spec, "If proportion ≥ 1, sampling is skipped (use full
data)", and otherwise the backend keeps a random subset of the rows, modelled
here by an arbitrary `keep` oracle. -/
noncomputable def random_sample_rows (proportion : ℝ) (keep : ℕ → Bool)
    (rows : List ℕ) : List ℕ :=
  if 1 ≤ proportion then rows else rows.filter keep

/-- Spec-side description of the link-only pair count: "total_links = a*b +
a*c + a*d + ... + b*c + b*d + ... + c*d + ..." — the sum of all pairwise
cross-products of the frame sizes, with no within-frame pairs. -/
noncomputable def pairwise_cross_sum : List ℝ → ℝ
  | [] => 0
  | c :: rest => c * rest.sum + pairwise_cross_sum rest

theorem sum_sq_sub_sq_sum (l : List ℝ) :
    l.sum ^ 2 - (l.map (fun c => c ^ 2)).sum = 2 * pairwise_cross_sum l := by
  induction l with
  | nil => simp [pairwise_cross_sum]
  | cons c rest ih =>
    simp only [List.sum_cons, List.map_cons, pairwise_cross_sum]
    ring_nf
    ring_nf at ih
    linarith

/-- `_rows_needed_for_n_pairs` returns the positive solution of
`r * (r - 1) / 2 = n_pairs`. -/
theorem rows_needed_solves_pair_equation (p : ℝ) (hp : 0 ≤ p) :
    _rows_needed_for_n_pairs p * (_rows_needed_for_n_pairs p - 1) / 2 = p ∧
    0 < _rows_needed_for_n_pairs p := by
  have hnn : (0:ℝ) ≤ 8 * p + 1 := by linarith
  have hs : Real.sqrt (8 * p + 1) ^ 2 = 8 * p + 1 := Real.sq_sqrt hnn
  have hs0 : 0 ≤ Real.sqrt (8 * p + 1) := Real.sqrt_nonneg _
  constructor
  · unfold _rows_needed_for_n_pairs
    nlinarith [hs]
  · unfold _rows_needed_for_n_pairs
    nlinarith [hs0]

/-! ### `splink/comparison_creator.py`: configured comparison levels -/

/-- The fields of a `ComparisonLevelCreator` relevant to probability
configuration. -/
structure ComparisonLevelCreator where
  is_null_level : Bool
  m_probability : Option ℚ := none
  u_probability : Option ℚ := none
deriving DecidableEq

/-- Modelled from the spec: `ComparisonLevelCreator.configure` (the file
`comparison_level_creator.py` is not under src/).  Per the spec's invariant
("the null level is never assigned an m/u probability via configuration"),
a supplied value is stored and a `None` argument leaves the field
untouched. -/
def ComparisonLevelCreator.configure (cl : ComparisonLevelCreator)
    (m_probability u_probability : Option ℚ) : ComparisonLevelCreator :=
  { cl with
    m_probability := match m_probability with
      | some v => some v
      | none => cl.m_probability
    u_probability := match u_probability with
      | some v => some v
      | none => cl.u_probability }

/-- A `ComparisonCreator`, reduced to the data `get_configured_comparison_levels`
reads: the result of `create_comparison_levels()` plus the optionally
configured probability lists (`none` models an absent attribute). -/
structure ComparisonCreator where
  levels : List ComparisonLevelCreator
  m_probabilities : Option (List ℚ) := none
  u_probabilities : Option (List ℚ) := none

/-- Python truthiness of `self.m_probabilities`: falsy for both `None` and
the empty list. -/
def pyTruthy : Option (List ℚ) → Bool
  | none => false
  | some l => !l.isEmpty

/-- `ComparisonCreator.num_non_null_levels` (comparison_creator.py lines
86-91). -/
def num_non_null_levels (levels : List ComparisonLevelCreator) : ℕ :=
  (levels.filter (fun cl => !cl.is_null_level)).length

/-- The `m_probabilities` setter (comparison_creator.py lines 155-167): a
falsy list is not stored; otherwise the length is validated against the
number of non-null levels, `none` modelling the `ValueError`. -/
def set_m_probabilities (cc : ComparisonCreator) (vals : List ℚ) :
    Option ComparisonCreator :=
  if vals.isEmpty then some cc
  else if vals.length = num_non_null_levels cc.levels then
    some { cc with m_probabilities := some vals }
  else none

/-- The `u_probabilities` setter (comparison_creator.py lines 174-186). -/
def set_u_probabilities (cc : ComparisonCreator) (vals : List ℚ) :
    Option ComparisonCreator :=
  if vals.isEmpty then some cc
  else if vals.length = num_non_null_levels cc.levels then
    some { cc with u_probabilities := some vals }
  else none

/-- One list comprehension of `get_configured_comparison_levels`
(comparison_creator.py lines 63-78): thread the copied values list through
the levels, calling `pop(0)` for each non-null level and passing `None` to
`configure` for a null level.  `none` models Python's `IndexError` on
popping from an empty list.  `isM` selects which probability is set. -/
def assign_probabilities (isM : Bool) :
    List ComparisonLevelCreator → List ℚ → Option (List ComparisonLevelCreator)
  | [], _ => some []
  | cl :: cls, vals =>
    if cl.is_null_level then
      (assign_probabilities isM cls vals).map
        (fun rest => cl.configure none none :: rest)
    else
      match vals with
      | [] => none
      | v :: rest =>
        (assign_probabilities isM cls rest).map
          (fun tail =>
            (if isM then cl.configure (some v) none
             else cl.configure none (some v)) :: tail)

/-- `ComparisonCreator.get_configured_comparison_levels`
(comparison_creator.py lines 58-79). -/
def get_configured_comparison_levels (cc : ComparisonCreator) :
    Option (List ComparisonLevelCreator) := do
  let ls := cc.levels
  let ls ←
    if pyTruthy cc.m_probabilities then
      assign_probabilities true ls (cc.m_probabilities.getD [])
    else pure ls
  if pyTruthy cc.u_probabilities then
    assign_probabilities false ls (cc.u_probabilities.getD [])
  else pure ls

/-! ### `estimate_u_values`: side effects on the two settings objects -/

/-- Comparison-level configuration state touched by `estimate_u_values`. -/
structure EUComparisonLevel where
  is_null_level : Bool
  tf_adjustment_column : Option String
  m_probability : Option ℚ
  u_probability : Option ℚ
  /-- provenance-tagged trained u-probability records -/
  trained_u_probabilities : List (ℚ × String)
deriving DecidableEq

/-- A comparison of the settings object, as read by `estimate_u_values`. -/
structure EUComparison where
  output_column_name : String
  comparison_levels : List EUComparisonLevel
deriving DecidableEq

/-- The configuration state of a linker's settings object read or written by
`estimate_u_values`. -/
structure EUSettings where
  retain_matching_columns : Bool
  retain_intermediate_calculation_columns : Bool
  blocking_rules_to_generate_predictions : List String
  comparisons : List EUComparison
deriving DecidableEq

/-- Modelled from the spec:
`append_u_probability_to_comparison_level_trained_probabilities` (module
`m_u_records_to_parameters`, not under src/) — "Results are written back into
the live Comparison/ComparisonLevel objects' trained-probability fields,
tagged with provenance".  `u_value` abstracts the numeric estimate looked up
for the level. -/
def append_trained_u (cl : EUComparisonLevel) (u_value : ℚ) (desc : String) :
    EUComparisonLevel :=
  { cl with
    trained_u_probabilities := cl.trained_u_probabilities ++ [(u_value, desc)] }

/-- The state effect of `estimate_u_values` (estimate_u.py lines 69-82,
137-146 and 207-224) on the original and the `deepcopy` training settings.
The copy receives the retain-flag, tf-column and blocking-rule mutations
(`training_blocking` is whatever list lines 137-146 install); the original
receives only the u write-back loop of lines 215-222, which walks the
comparisons' non-null levels (`_comparison_levels_excluding_null`, modelled
as a filter on `is_null_level`) and appends one provenance-tagged record.
`u_value` abstracts the estimate computed by the SQL pipeline.  Returns
`(training settings, original settings)` as left after the call. -/
def estimate_u_values_effect (orig : EUSettings) (training_blocking : List String)
    (u_value : EUComparison → EUComparisonLevel → ℚ) : EUSettings × EUSettings :=
  let training : EUSettings :=
    { retain_matching_columns := false
      retain_intermediate_calculation_columns := false
      blocking_rules_to_generate_predictions := training_blocking
      comparisons := orig.comparisons.map (fun c =>
        { c with comparison_levels := (c.comparison_levels.map
            (fun cl => { cl with tf_adjustment_column := none })) }) }
  let final_orig : EUSettings :=
    { orig with comparisons := (orig.comparisons.map (fun c =>
        { c with comparison_levels := (c.comparison_levels.map (fun cl =>
            if cl.is_null_level then cl
            else append_trained_u cl (u_value c cl)
                   "estimate u by random sampling")) })) }
  (training, final_orig)

/-! ### Claims about `estimate_u.py` -/

/-- Claim C5: for every max_pairs > 0 and positive total row count N, the
dedupe_only and link_and_dedupe branches of `estimate_u_values` compute the
sample size by the closed form `sample_rows = 0.5 * (sqrt(8*max_pairs+1)+1)`
— the positive solution of `r*(r-1)/2 = max_pairs` — and the sampling
proportion as `sample_rows / N`. -/
theorem estimate_u_dedupe_sample_formula (link_type : LinkType)
    (frame_counts : List ℝ) (max_pairs : ℝ)
    (hlt : link_type = LinkType.dedupe_only ∨ link_type = LinkType.link_and_dedupe)
    (hp : 0 < max_pairs) (hN : 0 < frame_counts.sum) :
    estimate_u_raw_plan link_type frame_counts max_pairs =
      some (0.5 * (Real.sqrt (8 * max_pairs + 1) + 1) / frame_counts.sum,
            0.5 * (Real.sqrt (8 * max_pairs + 1) + 1), frame_counts.sum)
    ∧ _rows_needed_for_n_pairs max_pairs *
        (_rows_needed_for_n_pairs max_pairs - 1) / 2 = max_pairs
    ∧ 0 < _rows_needed_for_n_pairs max_pairs := by
  have hsolve := rows_needed_solves_pair_equation max_pairs (le_of_lt hp)
  refine ⟨?_, hsolve.1, hsolve.2⟩
  have hne : frame_counts.sum ≠ 0 := ne_of_gt hN
  rcases hlt with h | h <;> subst h <;>
    simp [estimate_u_raw_plan, _rows_needed_for_n_pairs, hne]

theorem estimate_u_dedupe_sample_formula_witness :
    ((LinkType.dedupe_only = LinkType.dedupe_only ∨
        LinkType.dedupe_only = LinkType.link_and_dedupe)
      ∧ (0:ℝ) < 10000 ∧ (0:ℝ) < ([(1000:ℝ)] : List ℝ).sum)
    ∧ _rows_needed_for_n_pairs 10000 *
        (_rows_needed_for_n_pairs 10000 - 1) / 2 = 10000 := by
  have h := estimate_u_dedupe_sample_formula LinkType.dedupe_only [(1000:ℝ)] 10000
    (Or.inl rfl) (by norm_num) (by norm_num)
  exact ⟨⟨Or.inl rfl, by norm_num, by norm_num⟩, h.2.1⟩

/-- Claim C6 counterexample: with a single frame count the computed
`total_links` is `((7)^2 - 7^2)/2 = 0` and `_proportion_sample_size_link_only`
raises `ZeroDivisionError` (modelled as `none`) instead of computing the
claimed proportion `sqrt(max_pairs / total_links)`. -/
theorem link_only_zero_links_counterexample :
    _proportion_sample_size_link_only [7] 100 = none := by
  simp [_proportion_sample_size_link_only]

/-- Claim C6 (amended): provided the computed `total_links` is nonzero (which
requires at least two nonempty frames), `_proportion_sample_size_link_only`
computes `total_links = ((Σnᵢ)² − Σnᵢ²)/2` — equal to the sum of all
pairwise frame cross-products — and returns
`proportion = sqrt(max_pairs / total_links)` together with
`sample_size = proportion × Σnᵢ`. -/
theorem proportion_sample_size_link_only_formula (counts : List ℝ)
    (max_pairs : ℝ)
    (h : (counts.sum ^ 2 - (counts.map (fun c => c ^ 2)).sum) / 2 ≠ 0) :
    _proportion_sample_size_link_only counts max_pairs =
      some (Real.sqrt (max_pairs /
              ((counts.sum ^ 2 - (counts.map (fun c => c ^ 2)).sum) / 2)),
            Real.sqrt (max_pairs /
              ((counts.sum ^ 2 - (counts.map (fun c => c ^ 2)).sum) / 2))
              * counts.sum)
    ∧ (counts.sum ^ 2 - (counts.map (fun c => c ^ 2)).sum) / 2 =
        pairwise_cross_sum counts := by
  constructor
  · simp only [_proportion_sample_size_link_only, if_neg h]
  · have := sum_sq_sub_sq_sum counts
    linarith

theorem proportion_sample_size_link_only_formula_witness :
    ((([(1:ℝ), 1] : List ℝ).sum ^ 2
        - (([(1:ℝ), 1] : List ℝ).map (fun c => c ^ 2)).sum) / 2 ≠ 0)
    ∧ (([(1:ℝ), 1] : List ℝ).sum ^ 2
        - (([(1:ℝ), 1] : List ℝ).map (fun c => c ^ 2)).sum) / 2 =
        pairwise_cross_sum [(1:ℝ), 1] := by
  have hne : ((([(1:ℝ), 1] : List ℝ).sum ^ 2
      - (([(1:ℝ), 1] : List ℝ).map (fun c => c ^ 2)).sum) / 2 ≠ 0) := by
    norm_num
  exact ⟨hne, (proportion_sample_size_link_only_formula [(1:ℝ), 1] 2 hne).2⟩

/-- Claim C7: whenever the computed proportion is at least 1.0 it is clamped to
exactly 1.0 and sampling is skipped (the modelled `_random_sample_sql` keeps
every row); whenever the computed sample size exceeds the total row count it
is clamped to the total; values below the caps pass through unchanged. -/
theorem estimate_u_clamping (link_type : LinkType) (frame_counts : List ℝ)
    (max_pairs p s tot : ℝ)
    (h : estimate_u_raw_plan link_type frame_counts max_pairs = some (p, s, tot)) :
    estimate_u_sample_plan link_type frame_counts max_pairs =
      some (estimate_u_clamp p s tot)
    ∧ (1 ≤ p → (estimate_u_clamp p s tot).1 = 1)
    ∧ (p < 1 → (estimate_u_clamp p s tot).1 = p)
    ∧ (tot < s → (estimate_u_clamp p s tot).2 = tot)
    ∧ (s ≤ tot → (estimate_u_clamp p s tot).2 = s)
    ∧ (1 ≤ p → ∀ keep rows,
        random_sample_rows (estimate_u_clamp p s tot).1 keep rows = rows) := by
  refine ⟨by simp [estimate_u_sample_plan, h], ?_, ?_, ?_, ?_, ?_⟩
  · intro h1
    simp [estimate_u_clamp, if_pos h1]
  · intro h1
    simp [estimate_u_clamp, if_neg (not_le.mpr h1)]
  · intro h1
    simp [estimate_u_clamp, if_pos h1]
  · intro h1
    simp [estimate_u_clamp, if_neg (not_lt.mpr h1)]
  · intro h1 keep rows
    simp [estimate_u_clamp, if_pos h1, random_sample_rows]

theorem estimate_u_clamping_witness :
    estimate_u_raw_plan LinkType.dedupe_only [(1:ℝ)] 1 = some (2, 2, 1)
    ∧ estimate_u_sample_plan LinkType.dedupe_only [(1:ℝ)] 1 = some (1, 1) := by
  have h9 : Real.sqrt (9:ℝ) = 3 := by
    rw [show (9:ℝ) = 3 ^ 2 by norm_num]
    exact Real.sqrt_sq (by norm_num)
  have hraw : estimate_u_raw_plan LinkType.dedupe_only [(1:ℝ)] 1 = some (2, 2, 1) := by
    simp [estimate_u_raw_plan, _rows_needed_for_n_pairs]
    norm_num [h9]
  have h := estimate_u_clamping LinkType.dedupe_only [(1:ℝ)] 1 2 2 1 hraw
  refine ⟨hraw, ?_⟩
  rw [h.1]
  have : estimate_u_clamp (2:ℝ) 2 1 = (1, 1) := by
    norm_num [estimate_u_clamp]
  rw [this]

/-- Claim C10: a link_only run in which every row belongs to a single source
dataset yields `total_links = 0`; the division `max_pairs / total_links` in
`_proportion_sample_size_link_only` is unguarded and raises
`ZeroDivisionError` (modelled as `none`), and `estimate_u_values` performs
no zero check before calling it, so the error propagates. -/
theorem estimate_u_link_only_division_by_zero :
    _proportion_sample_size_link_only [5] 100 = none
    ∧ estimate_u_raw_plan LinkType.link_only [5] 100 = none
    ∧ estimate_u_sample_plan LinkType.link_only [5] 100 = none := by
  have h : _proportion_sample_size_link_only [5] 100 = none := by
    simp [_proportion_sample_size_link_only]
  refine ⟨h, ?_, ?_⟩
  · simp [estimate_u_raw_plan, h]
  · simp [estimate_u_sample_plan, estimate_u_raw_plan, h]

/-- A list is `Forall₂`-related to its own map whenever the function relates
pointwise. -/
theorem forall₂_map_self {α β : Type} (R : α → β → Prop) (f : α → β)
    (l : List α) (h : ∀ a ∈ l, R a (f a)) : List.Forall₂ R l (l.map f) := by
  induction l with
  | nil => simp
  | cons a rest ih =>
    simp only [List.map_cons, List.forall₂_cons]
    exact ⟨h a (by simp), ih (fun b hb => h b (by simp [hb]))⟩

/-- Claim C8: the only effect of `estimate_u_values` on the caller's settings
object is appending one trained u-probability record, tagged with the
random-sampling provenance string, to each non-null comparison level; the
retain flags, blocking rules, tf-adjustment columns, m/u probabilities and
null levels of the original are unchanged (the retain/tf/blocking mutations
hit only the deep copy). -/
theorem estimate_u_values_side_effect (orig : EUSettings) (bl : List String)
    (u_value : EUComparison → EUComparisonLevel → ℚ) :
    (estimate_u_values_effect orig bl u_value).2.retain_matching_columns =
        orig.retain_matching_columns
    ∧ (estimate_u_values_effect orig bl u_value).2.retain_intermediate_calculation_columns
        = orig.retain_intermediate_calculation_columns
    ∧ (estimate_u_values_effect orig bl u_value).2.blocking_rules_to_generate_predictions
        = orig.blocking_rules_to_generate_predictions
    ∧ List.Forall₂ (fun c c' : EUComparison =>
        c'.output_column_name = c.output_column_name ∧
        List.Forall₂ (fun cl cl' : EUComparisonLevel =>
          cl'.is_null_level = cl.is_null_level ∧
          cl'.tf_adjustment_column = cl.tf_adjustment_column ∧
          cl'.m_probability = cl.m_probability ∧
          cl'.u_probability = cl.u_probability ∧
          (cl.is_null_level = true → cl' = cl) ∧
          (cl.is_null_level = false →
            cl'.trained_u_probabilities = cl.trained_u_probabilities ++
              [(u_value c cl, "estimate u by random sampling")]))
          c.comparison_levels c'.comparison_levels)
        orig.comparisons (estimate_u_values_effect orig bl u_value).2.comparisons := by
  refine ⟨rfl, rfl, rfl, ?_⟩
  apply forall₂_map_self
  intro c _
  refine ⟨rfl, ?_⟩
  apply forall₂_map_self
  intro cl _
  cases hn : cl.is_null_level with
  | true => simp [hn]
  | false => simp [hn, append_trained_u]

/-! ### Claim C9: probability assignment never touches the null level -/

theorem forall₂_comp {α β γ : Type} {R : α → β → Prop} {S : β → γ → Prop}
    {T : α → γ → Prop} :
    ∀ {l1 : List α} {l2 : List β} {l3 : List γ},
    List.Forall₂ R l1 l2 → List.Forall₂ S l2 l3 →
    (∀ a b c, R a b → S b c → T a c) → List.Forall₂ T l1 l3 := by
  intro l1 l2 l3 h1
  induction h1 generalizing l3 with
  | nil =>
    intro h2 _
    cases h2
    exact List.Forall₂.nil
  | cons hab _ ih =>
    intro h2 hcomp
    cases h2 with
    | cons hbc htail =>
      exact List.Forall₂.cons (hcomp _ _ _ hab hbc) (ih htail hcomp)

/-- `configure` never changes whether a level is the null level. -/
theorem configure_is_null (cl : ComparisonLevelCreator) (m u : Option ℚ) :
    (cl.configure m u).is_null_level = cl.is_null_level := rfl

/-- `configure` with two `None` arguments leaves the level untouched. -/
theorem configure_none_none (cl : ComparisonLevelCreator) :
    cl.configure none none = cl := rfl

/-- Behaviour of one probability-assignment pass: given a values list whose
length matches the number of non-null levels (as validated by the setters),
the pass succeeds, each null level is passed `None` and left untouched, the
other probability field is untouched everywhere, and the supplied values are
stored, in order, in exactly the non-null levels. -/
theorem assign_probabilities_spec (isM : Bool) :
    ∀ (ls : List ComparisonLevelCreator) (vals : List ℚ),
    vals.length = num_non_null_levels ls →
    ∃ out, assign_probabilities isM ls vals = some out
      ∧ List.Forall₂ (fun cl cl' =>
          cl'.is_null_level = cl.is_null_level ∧
          (cl.is_null_level = true → cl' = cl) ∧
          (isM = true → cl'.u_probability = cl.u_probability) ∧
          (isM = false → cl'.m_probability = cl.m_probability)) ls out
      ∧ (out.filter (fun cl => !cl.is_null_level)).map
          (fun cl => if isM then cl.m_probability else cl.u_probability)
        = vals.map some := by
  intro ls
  induction ls with
  | nil =>
    intro vals hlen
    simp only [num_non_null_levels, List.filter_nil, List.length_nil,
      List.length_eq_zero] at hlen
    subst hlen
    exact ⟨[], rfl, List.Forall₂.nil, by simp⟩
  | cons cl cls ih =>
    intro vals hlen
    by_cases hnull : cl.is_null_level
    · have hlen' : vals.length = num_non_null_levels cls := by
        simpa [num_non_null_levels, List.filter_cons, hnull] using hlen
      obtain ⟨out, hout, hfa, hmap⟩ := ih vals hlen'
      refine ⟨cl.configure none none :: out, ?_, ?_, ?_⟩
      · simp [assign_probabilities, hnull, hout]
      · exact List.Forall₂.cons
          ⟨by simp [configure_is_null], fun _ => configure_none_none cl,
            fun _ => rfl, fun _ => rfl⟩ hfa
      · rw [configure_none_none]
        simpa [List.filter_cons, hnull] using hmap
    · have hlen' : vals.length = num_non_null_levels cls + 1 := by
        simpa [num_non_null_levels, List.filter_cons, hnull] using hlen
      match vals, hlen' with
      | v :: rest, hlen' =>
        have hrest : rest.length = num_non_null_levels cls := by
          simpa using hlen'
        obtain ⟨out, hout, hfa, hmap⟩ := ih rest hrest
        refine ⟨(if isM then cl.configure (some v) none
                 else cl.configure none (some v)) :: out, ?_, ?_, ?_⟩
        · simp [assign_probabilities, hnull, hout]
        · refine List.Forall₂.cons ?_ hfa
          cases isM <;>
            simp [configure_is_null, hnull, ComparisonLevelCreator.configure]
        · cases isM <;>
            simpa [List.filter_cons, hnull, configure_is_null,
              ComparisonLevelCreator.configure] using hmap

/-- Levels related by a pass preserve the count of non-null levels. -/
theorem num_non_null_of_forall₂ {l1 l2 : List ComparisonLevelCreator}
    (h : List.Forall₂
      (fun cl cl' : ComparisonLevelCreator =>
        cl'.is_null_level = cl.is_null_level) l1 l2) :
    num_non_null_levels l2 = num_non_null_levels l1 := by
  induction h with
  | nil => rfl
  | cons hab _ ih =>
    simp only [num_non_null_levels, List.filter_cons, hab] at *
    split <;> simp [ih]

/-- A pass that preserves nullity and a field `f` preserves the filtered
field listing. -/
theorem filter_map_eq_of_forall₂ (f : ComparisonLevelCreator → Option ℚ)
    {l1 l2 : List ComparisonLevelCreator}
    (h : List.Forall₂ (fun cl cl' : ComparisonLevelCreator =>
      cl'.is_null_level = cl.is_null_level ∧ f cl' = f cl) l1 l2) :
    (l2.filter (fun cl => !cl.is_null_level)).map f
      = (l1.filter (fun cl => !cl.is_null_level)).map f := by
  induction h with
  | nil => rfl
  | cons hab _ ih =>
    simp only [List.filter_cons, hab.1]
    split <;> simp [ih, hab.2]

/-- One optional probability pass of `get_configured_comparison_levels`:
an absent or falsy list changes nothing; a stored list of the validated
length is assigned, in order, to the non-null levels. -/
theorem assign_pass_spec (isM : Bool) (ls : List ComparisonLevelCreator)
    (vopt : Option (List ℚ))
    (h : ∀ v, vopt = some v → v.length = num_non_null_levels ls) :
    ∃ out,
      (if pyTruthy vopt then assign_probabilities isM ls (vopt.getD [])
        else pure ls) = some out
      ∧ List.Forall₂ (fun cl cl' =>
          cl'.is_null_level = cl.is_null_level ∧
          (cl.is_null_level = true → cl' = cl) ∧
          (isM = true → cl'.u_probability = cl.u_probability) ∧
          (isM = false → cl'.m_probability = cl.m_probability)) ls out
      ∧ (∀ v, vopt = some v →
          (out.filter (fun cl => !cl.is_null_level)).map
            (fun cl => if isM then cl.m_probability else cl.u_probability)
          = v.map some)
      ∧ (vopt = none → out = ls) := by
  match vopt with
  | none =>
    refine ⟨ls, by simp [pyTruthy], ?_, by simp, fun _ => rfl⟩
    exact List.forall₂_same.mpr
      (fun cl _ => ⟨rfl, fun _ => rfl, fun _ => rfl, fun _ => rfl⟩)
  | some [] =>
    have hcount : num_non_null_levels ls = 0 := (h [] rfl).symm
    have hfil : ls.filter (fun cl => !cl.is_null_level) = [] := by
      simpa [num_non_null_levels, List.length_eq_zero] using hcount
    refine ⟨ls, by simp [pyTruthy], ?_, ?_, fun hn => nomatch hn⟩
    · exact List.forall₂_same.mpr
        (fun cl _ => ⟨rfl, fun _ => rfl, fun _ => rfl, fun _ => rfl⟩)
    · intro v hv
      cases hv
      simp [hfil]
  | some (x :: rest) =>
    obtain ⟨out, hout, hfa, hmap⟩ :=
      assign_probabilities_spec isM ls (x :: rest) (h _ rfl)
    refine ⟨out, ?_, hfa, ?_, fun hn => nomatch hn⟩
    · simpa [pyTruthy] using hout
    · intro v hv
      cases hv
      exact hmap

/-- Claim C9: for every `ComparisonCreator` — any combination of absent and
configured probability lists whose lengths pass the setters' validation —
`get_configured_comparison_levels` succeeds and never assigns an
m-probability or u-probability to a null level: null levels are passed
`None` and left untouched, each supplied list is stored, in order, in
exactly the non-null levels, and an absent list leaves its probability
field untouched everywhere. -/
theorem get_configured_comparison_levels_null_inv
    (levels : List ComparisonLevelCreator) (mopt uopt : Option (List ℚ))
    (hm : ∀ v, mopt = some v → v.length = num_non_null_levels levels)
    (hu : ∀ v, uopt = some v → v.length = num_non_null_levels levels) :
    ∃ out,
      get_configured_comparison_levels ⟨levels, mopt, uopt⟩ = some out
      ∧ List.Forall₂ (fun cl cl' : ComparisonLevelCreator =>
          cl'.is_null_level = cl.is_null_level ∧
          (cl.is_null_level = true → cl' = cl)) levels out
      ∧ (∀ v, mopt = some v →
          (out.filter (fun cl => !cl.is_null_level)).map
            (fun cl => cl.m_probability) = v.map some)
      ∧ (∀ v, uopt = some v →
          (out.filter (fun cl => !cl.is_null_level)).map
            (fun cl => cl.u_probability) = v.map some)
      ∧ (mopt = none →
          (out.filter (fun cl => !cl.is_null_level)).map
            (fun cl => cl.m_probability)
          = (levels.filter (fun cl => !cl.is_null_level)).map
            (fun cl => cl.m_probability))
      ∧ (uopt = none →
          (out.filter (fun cl => !cl.is_null_level)).map
            (fun cl => cl.u_probability)
          = (levels.filter (fun cl => !cl.is_null_level)).map
            (fun cl => cl.u_probability)) := by
  obtain ⟨mid, hmid, hfam, hmapm, hnonem⟩ := assign_pass_spec true levels mopt hm
  have hcount : num_non_null_levels mid = num_non_null_levels levels :=
    num_non_null_of_forall₂ (hfam.imp (fun _ _ hr => hr.1))
  obtain ⟨out, hout, hfau, hmapu, hnoneu⟩ := assign_pass_spec false mid uopt
    (fun v hv => (hu v hv).trans hcount.symm)
  have hpresm : (out.filter (fun cl => !cl.is_null_level)).map
      (fun cl => cl.m_probability)
      = (mid.filter (fun cl => !cl.is_null_level)).map
        (fun cl => cl.m_probability) :=
    filter_map_eq_of_forall₂ _ (hfau.imp (fun a b hr => ⟨hr.1, hr.2.2.2 rfl⟩))
  have hpresu : (mid.filter (fun cl => !cl.is_null_level)).map
      (fun cl => cl.u_probability)
      = (levels.filter (fun cl => !cl.is_null_level)).map
        (fun cl => cl.u_probability) :=
    filter_map_eq_of_forall₂ _ (hfam.imp (fun a b hr => ⟨hr.1, hr.2.2.1 rfl⟩))
  refine ⟨out, ?_, ?_, ?_, ?_, ?_, ?_⟩
  · simp only [get_configured_comparison_levels]
    by_cases hmt : pyTruthy mopt = true
    · rw [if_pos hmt] at hmid ⊢
      rw [hmid]
      simpa using hout
    · rw [if_neg hmt] at hmid ⊢
      have hlm : levels = mid := by simpa using hmid
      rw [← hlm] at hout
      simpa using hout
  · exact forall₂_comp hfam hfau (fun a b c hab hbc =>
      ⟨hbc.1.trans hab.1, fun hn => by
        have hb := hab.2.1 hn
        subst hb
        exact hbc.2.1 hn⟩)
  · intro v hv
    rw [hpresm]
    simpa using hmapm v hv
  · intro v hv
    simpa using hmapu v hv
  · intro hv
    rw [hpresm, hnonem hv]
  · intro hv
    rw [hnoneu hv, hpresu]

theorem get_configured_comparison_levels_null_inv_witness :
    ((∀ v, (some [(3:ℚ)/10, 7/10] : Option (List ℚ)) = some v →
        v.length = num_non_null_levels
          [⟨false, none, none⟩, ⟨true, none, none⟩, ⟨false, none, none⟩])
      ∧ (∀ v, (some [(1:ℚ)/100, 99/100] : Option (List ℚ)) = some v →
        v.length = num_non_null_levels
          [⟨false, none, none⟩, ⟨true, none, none⟩, ⟨false, none, none⟩]))
    ∧ ∃ out,
      get_configured_comparison_levels
        ⟨[⟨false, none, none⟩, ⟨true, none, none⟩, ⟨false, none, none⟩],
          some [(3:ℚ)/10, 7/10], some [(1:ℚ)/100, 99/100]⟩ = some out
      ∧ List.Forall₂ (fun cl cl' : ComparisonLevelCreator =>
          cl'.is_null_level = cl.is_null_level ∧
          (cl.is_null_level = true → cl' = cl))
          [⟨false, none, none⟩, ⟨true, none, none⟩, ⟨false, none, none⟩] out
      ∧ (∀ v, (some [(3:ℚ)/10, 7/10] : Option (List ℚ)) = some v →
          (out.filter (fun cl => !cl.is_null_level)).map
            (fun cl => cl.m_probability) = v.map some)
      ∧ (∀ v, (some [(1:ℚ)/100, 99/100] : Option (List ℚ)) = some v →
          (out.filter (fun cl => !cl.is_null_level)).map
            (fun cl => cl.u_probability) = v.map some)
      ∧ ((some [(3:ℚ)/10, 7/10] : Option (List ℚ)) = none →
          (out.filter (fun cl => !cl.is_null_level)).map
            (fun cl => cl.m_probability)
          = (([⟨false, none, none⟩, ⟨true, none, none⟩,
              ⟨false, none, none⟩] : List ComparisonLevelCreator).filter
              (fun cl => !cl.is_null_level)).map (fun cl => cl.m_probability))
      ∧ ((some [(1:ℚ)/100, 99/100] : Option (List ℚ)) = none →
          (out.filter (fun cl => !cl.is_null_level)).map
            (fun cl => cl.u_probability)
          = (([⟨false, none, none⟩, ⟨true, none, none⟩,
              ⟨false, none, none⟩] : List ComparisonLevelCreator).filter
              (fun cl => !cl.is_null_level)).map (fun cl => cl.u_probability)) := by
  refine ⟨⟨?_, ?_⟩, ?_⟩
  · intro v hv
    cases hv
    decide
  · intro v hv
    cases hv
    decide
  · exact get_configured_comparison_levels_null_inv
      [⟨false, none, none⟩, ⟨true, none, none⟩, ⟨false, none, none⟩]
      (some [(3:ℚ)/10, 7/10]) (some [(1:ℚ)/100, 99/100])
      (fun v hv => by cases hv; decide) (fun v hv => by cases hv; decide)

/-! ### `splink/internals/connected_components.py`

The SQL tables are modelled as `Finset`s of rows (SQL `UNION` and
`GROUP BY` have set semantics here, matching the distinct keys/rows the
queries produce), the node ids as `ℕ` and the match probabilities as `ℚ`. -/

/-- Does a match probability pass the optional threshold
(`where match_probability >= {threshold_match_probability}`, no filtering
when the threshold is None)? -/
def ccEdgePasses (threshold : Option ℚ) (p : ℚ) : Bool :=
  match threshold with
  | none => true
  | some t => t ≤ p

/-- The threshold-filtered edge pairs of the first query of
`solve_connected_components` (lines 300-305), before the self-loop union. -/
def ccFilteredEdges (edges : Finset (ℕ × ℕ × ℚ)) (threshold : Option ℚ) :
    Finset (ℕ × ℕ) :=
  (edges.filter (fun e => ccEdgePasses threshold e.2.2)).image
    (fun e => (e.1, e.2.1))

/-- `__splink__edges` (lines 300-314): the filtered edge pairs `UNION` a
self pair for every node. -/
def ccSplinkEdges (nodes : Finset ℕ) (edges : Finset (ℕ × ℕ × ℚ))
    (threshold : Option ℚ) : Finset (ℕ × ℕ) :=
  ccFilteredEdges edges threshold ∪ nodes.image (fun n => (n, n))

/-- `__splink__df_neighbours` (`_cc_generate_neighbours_representation`,
lines 28-63): the nodes left-joined onto `__splink__edges` in both
directions.  Because `__splink__edges` contains a self pair for every node,
both left joins always find a match, so no SQL NULL (and no `coalesce`
fallback) ever arises, and the result is exactly the `__splink__edges` rows
whose join endpoint is a node, the right-joined ones swapped. -/
def ccNeighbours (nodes : Finset ℕ) (edges : Finset (ℕ × ℕ × ℚ))
    (threshold : Option ℚ) : Finset (ℕ × ℕ) :=
  (ccSplinkEdges nodes edges threshold).filter (fun e => e.1 ∈ nodes) ∪
    ((ccSplinkEdges nodes edges threshold).filter (fun e => e.2 ∈ nodes)).image
      (fun e => (e.2, e.1))

/-- The neighbours of one node: the `neighbour` column of the
`__splink__df_neighbours` rows keyed by `node_id`. -/
def nbrsOf (N : Finset (ℕ × ℕ)) (n : ℕ) : Finset ℕ :=
  (N.filter (fun e => e.1 = n)).image (fun e => e.2)

/-- Minimum of a finite set of naturals with a default (SQL `min`
aggregates to NULL on no rows; the default is only read where the source
query cannot produce NULL). -/
def fminD (s : Finset ℕ) (d : ℕ) : ℕ := s.min.untop' d

/-- A representatives table: the `node_id` rows present, with the
`representative` and `rep_match` columns as functions (only their values on
`dom` are meaningful). -/
structure RTable where
  dom : Finset ℕ
  rep : ℕ → ℕ
  rmatch : ℕ → Bool

/-- `_cc_generate_initial_representatives_table` (lines 66-93): group the
neighbours table by `node_id`, representative = minimum neighbour. -/
def ccInitialReps (N : Finset (ℕ × ℕ)) : RTable where
  dom := N.image (fun e => e.1)
  rep := fun n => fminD (nbrsOf N n) n
  rmatch := fun _ => false

/-- `_cc_update_neighbours_first_iter` and
`_cc_update_representatives_first_iter` (lines 96-153):
representative(n) = min over n's neighbours m of m's initial representative
(the left join yields NULL for a neighbour with no representatives row and
`min` ignores NULL, hence the filter), and `rep_match` compares with n's
initial representative (inner join, hence the dom intersection). -/
def ccFirstIterReps (N : Finset (ℕ × ℕ)) : RTable :=
  let r0 := ccInitialReps N
  let rep1 := fun n =>
    fminD (((nbrsOf N n).filter (fun m => m ∈ r0.dom)).image r0.rep) (r0.rep n)
  { dom := (N.image (fun e => e.1)) ∩ r0.dom
    rep := rep1
    rmatch := fun n => decide (rep1 n ≠ r0.rep n) }

/-- The grouped `source` rows of `_cc_generate_representatives_loop_cond`
(lines 156-218): the candidate representative values for node n — the
previous representative of every neighbour with `rep_match = True`, plus
n's own previous representative when n's `rep_match = False`. -/
def ccCandidates (N : Finset (ℕ × ℕ)) (T : RTable) (n : ℕ) : Finset ℕ :=
  ((nbrsOf N n).filter (fun m => m ∈ T.dom ∧ T.rmatch m = true)).image T.rep ∪
    (if n ∈ T.dom ∧ T.rmatch n = false then {T.rep n} else ∅)

/-- One loop update (`_cc_generate_representatives_loop_cond` then
`_cc_update_representatives_loop_cond`, lines 156-245): group the candidate
rows by node taking the min, then recompute `rep_match` against the
previous table (left join: a node with no previous row compares with NULL,
which is not True). -/
def ccStep (N : Finset (ℕ × ℕ)) (T : RTable) : RTable :=
  let newRep := fun n => fminD (ccCandidates N T n) (T.rep n)
  { dom := ((N.image (fun e => e.1)) ∪ T.dom).filter
      (fun n => (ccCandidates N T n).Nonempty)
    rep := newRep
    rmatch := fun n => decide (n ∈ T.dom) && decide (newRep n ≠ T.rep n) }

/-- The member node ids of a representative's group. -/
def ccMembers (T : RTable) (g : ℕ) : Finset ℕ :=
  T.dom.filter (fun n => T.rep n = g)

/-- All neighbours of a group's members (the `distinct_neighbours` list of
the stability query, lines 389-404). -/
def ccNbrSet (N : Finset (ℕ × ℕ)) (T : RTable) (g : ℕ) : Finset ℕ :=
  (ccMembers T g).biUnion (nbrsOf N)

/-- The stable representatives (`stable_clusters`, lines 406-413): the
groups whose distinct member list equals its distinct neighbour list. -/
def ccStableReps (N : Finset (ℕ × ℕ)) (T : RTable) : Finset ℕ :=
  (T.dom.image T.rep).filter (fun g => ccMembers T g = ccNbrSet N T g)

/-- The `__splink__representatives_stable` rows emitted as final clusters
this iteration, already as `(cluster_id, node_id)` pairs (lines 420-431
with the final projection of lines 477-490). -/
def ccEmitted (N : Finset (ℕ × ℕ)) (T : RTable) : Finset (ℕ × ℕ) :=
  (T.dom.filter (fun n => T.rep n ∈ ccStableReps N T)).image
    (fun n => (T.rep n, n))

/-- `representatives_thinned` (lines 438-447): the rows whose
representative is not stable. -/
def ccThin (N : Finset (ℕ × ℕ)) (T : RTable) : RTable :=
  { T with dom := T.dom.filter (fun n => T.rep n ∉ ccStableReps N T) }

/-- `_cc_assess_exit_condition` (lines 248-262): how many remaining rows
have `rep_match` true. -/
def ccMatchCount (T : RTable) : ℕ :=
  (T.dom.filter (fun n => T.rmatch n = true)).card

/-- Termination measure: Σ over the remaining rows of (representative + 1). -/
def ccMeasure (T : RTable) : ℕ := T.dom.sum (fun n => T.rep n + 1)

/-- The while loop of `solve_connected_components` (lines 344-473) with
explicit fuel — the Python loop has no iteration cap, and
`ccLoop_matchCount_final` below proves the fuel supplied by
`solve_connected_components` always suffices (the loop terminates).  Each
iteration updates the table, emits and removes the stable clusters, and
exits when no remaining row has `rep_match = true`. -/
def ccLoop (N : Finset (ℕ × ℕ)) :
    ℕ → RTable → Finset (ℕ × ℕ) → RTable × Finset (ℕ × ℕ)
  | 0, T, acc => (T, acc)
  | fuel + 1, T, acc =>
    let T2 := ccStep N T
    let T3 := ccThin N T2
    let acc2 := acc ∪ ccEmitted N T2
    if 0 < ccMatchCount T3 then ccLoop N fuel T3 acc2 else (T3, acc2)

/-- `solve_connected_components` (lines 265-494): the final
`(cluster_id, node_id)` rows — the union of the stable clusters emitted
across all iterations (the closing query only renames and sorts). -/
def solve_connected_components (nodes : Finset ℕ) (edges : Finset (ℕ × ℕ × ℚ))
    (threshold_match_probability : Option ℚ) : Finset (ℕ × ℕ) :=
  let N := ccNeighbours nodes edges threshold_match_probability
  let T1 := ccFirstIterReps N
  (ccLoop N (ccMeasure T1 + 1) T1 ∅).2

/-- The representatives table left behind when the loop exits. -/
def ccFinalState (nodes : Finset ℕ) (edges : Finset (ℕ × ℕ × ℚ))
    (threshold_match_probability : Option ℚ) : RTable :=
  let N := ccNeighbours nodes edges threshold_match_probability
  let T1 := ccFirstIterReps N
  (ccLoop N (ccMeasure T1 + 1) T1 ∅).1

/-- Two nodes are adjacent when some edge passing the threshold joins them,
in either storage order. -/
def ccAdj (edges : Finset (ℕ × ℕ × ℚ)) (threshold : Option ℚ) (a b : ℕ) :
    Prop :=
  (a, b) ∈ ccFilteredEdges edges threshold ∨
    (b, a) ∈ ccFilteredEdges edges threshold

/-- Connected by a path of edges whose match probability is not below the
threshold. -/
def ccConnected (edges : Finset (ℕ × ℕ × ℚ)) (threshold : Option ℚ) :
    ℕ → ℕ → Prop :=
  Relation.ReflTransGen (ccAdj edges threshold)

/-- The minimum node id of a node's connected component within the node
set (the cluster id the spec promises). -/
noncomputable def ccComponentMin (nodes : Finset ℕ)
    (edges : Finset (ℕ × ℕ × ℚ)) (threshold : Option ℚ) (n : ℕ) : ℕ :=
  sInf {m : ℕ | m ∈ nodes ∧ ccConnected edges threshold n m}

/-! ### Basic facts about the neighbours representation -/

theorem fminD_mem {s : Finset ℕ} (d : ℕ) (h : s.Nonempty) : fminD s d ∈ s := by
  unfold fminD
  rw [← Finset.coe_min' h, WithTop.untop'_coe]
  exact Finset.min'_mem s h

theorem fminD_le {s : Finset ℕ} (d : ℕ) {a : ℕ} (ha : a ∈ s) : fminD s d ≤ a := by
  unfold fminD
  rw [← Finset.coe_min' ⟨a, ha⟩, WithTop.untop'_coe]
  exact Finset.min'_le s a ha

theorem mem_ccSplinkEdges {nodes : Finset ℕ} {edges : Finset (ℕ × ℕ × ℚ)}
    {threshold : Option ℚ} {x y : ℕ} :
    (x, y) ∈ ccSplinkEdges nodes edges threshold ↔
      (x, y) ∈ ccFilteredEdges edges threshold ∨ (x ∈ nodes ∧ y = x) := by
  unfold ccSplinkEdges
  simp only [Finset.mem_union, Finset.mem_image, Prod.mk.injEq]
  aesop

theorem mem_ccNeighbours {nodes : Finset ℕ} {edges : Finset (ℕ × ℕ × ℚ)}
    {threshold : Option ℚ} {a b : ℕ} :
    (a, b) ∈ ccNeighbours nodes edges threshold ↔
      a ∈ nodes ∧ ((a, b) ∈ ccSplinkEdges nodes edges threshold ∨
        (b, a) ∈ ccSplinkEdges nodes edges threshold) := by
  unfold ccNeighbours
  simp only [Finset.mem_union, Finset.mem_filter, Finset.mem_image,
    Prod.mk.injEq]
  constructor
  · rintro (⟨h, ha⟩ | ⟨e, ⟨he, h2⟩, heq1, heq2⟩)
    · exact ⟨ha, Or.inl h⟩
    · refine ⟨heq1 ▸ h2, Or.inr ?_⟩
      have he2 : e = (b, a) := by rw [← heq1, ← heq2]
      rwa [he2] at he
  · rintro ⟨ha, h | h⟩
    · exact Or.inl ⟨h, ha⟩
    · exact Or.inr ⟨(b, a), ⟨h, ha⟩, rfl, rfl⟩

theorem mem_nbrsOf {N : Finset (ℕ × ℕ)} {n m : ℕ} :
    m ∈ nbrsOf N n ↔ (n, m) ∈ N := by
  unfold nbrsOf
  simp only [Finset.mem_image, Finset.mem_filter]
  constructor
  · rintro ⟨e, ⟨he, h1⟩, h2⟩
    have : e = (n, m) := Prod.ext h1 h2
    exact this ▸ he
  · intro h
    exact ⟨(n, m), ⟨h, rfl⟩, rfl⟩

theorem ccSelfLoop {nodes : Finset ℕ} {edges : Finset (ℕ × ℕ × ℚ)}
    {threshold : Option ℚ} {n : ℕ} (hn : n ∈ nodes) :
    (n, n) ∈ ccNeighbours nodes edges threshold :=
  mem_ccNeighbours.mpr ⟨hn, Or.inl (mem_ccSplinkEdges.mpr (Or.inr ⟨hn, rfl⟩))⟩

theorem ccNeighbours_fst {nodes : Finset ℕ} {edges : Finset (ℕ × ℕ × ℚ)}
    {threshold : Option ℚ} {a b : ℕ}
    (h : (a, b) ∈ ccNeighbours nodes edges threshold) : a ∈ nodes :=
  (mem_ccNeighbours.mp h).1

/-- The node ids of the neighbours table are exactly the node set. -/
theorem ccNeighbours_image_fst (nodes : Finset ℕ) (edges : Finset (ℕ × ℕ × ℚ))
    (threshold : Option ℚ) :
    (ccNeighbours nodes edges threshold).image (fun e => e.1) = nodes := by
  apply Finset.Subset.antisymm
  · intro a ha
    obtain ⟨e, he, rfl⟩ := Finset.mem_image.mp ha
    exact ccNeighbours_fst (by rwa [show (e.1, e.2) = e from rfl])
  · intro n hn
    exact Finset.mem_image.mpr ⟨(n, n), ccSelfLoop hn, rfl⟩

/-- Claim C2: for every node n of the node set, the initial representative of
n — computed by grouping the neighbours table — is `min(neighbours(n) ∪ {n})`
and in particular never greater than n's own node id. -/
theorem initial_representative_min (nodes : Finset ℕ)
    (edges : Finset (ℕ × ℕ × ℚ)) (threshold : Option ℚ) (n : ℕ)
    (hn : n ∈ nodes) :
    n ∈ (ccInitialReps (ccNeighbours nodes edges threshold)).dom
    ∧ (ccInitialReps (ccNeighbours nodes edges threshold)).rep n =
        fminD (insert n (nbrsOf (ccNeighbours nodes edges threshold) n)) n
    ∧ (ccInitialReps (ccNeighbours nodes edges threshold)).rep n ≤ n := by
  have hself : n ∈ nbrsOf (ccNeighbours nodes edges threshold) n :=
    mem_nbrsOf.mpr (ccSelfLoop hn)
  refine ⟨?_, ?_, ?_⟩
  · show n ∈ (ccNeighbours nodes edges threshold).image (fun e => e.1)
    rw [ccNeighbours_image_fst]
    exact hn
  · show fminD (nbrsOf (ccNeighbours nodes edges threshold) n) n = _
    rw [Finset.insert_eq_self.mpr hself]
  · exact fminD_le n hself

theorem initial_representative_min_witness :
    (1:ℕ) ∈ ({1, 2} : Finset ℕ)
    ∧ ((1:ℕ) ∈ (ccInitialReps (ccNeighbours {1, 2} {(1, 2, (1:ℚ))} none)).dom
      ∧ (ccInitialReps (ccNeighbours {1, 2} {(1, 2, (1:ℚ))} none)).rep 1 =
          fminD (insert 1 (nbrsOf (ccNeighbours {1, 2} {(1, 2, (1:ℚ))} none) 1)) 1
      ∧ (ccInitialReps (ccNeighbours {1, 2} {(1, 2, (1:ℚ))} none)).rep 1 ≤ 1) :=
  ⟨by decide, initial_representative_min {1, 2} {(1, 2, (1:ℚ))} none 1 (by decide)⟩

/-- Claim C3 counterexample: the derived neighbour relation does not contain
the reversed pair of a filtered edge whose right endpoint is missing from
the node set — with nodes {1} and the single edge (1, 2), the pair (2, 1)
is absent (node 2 never enters the left join against the node list). -/
theorem neighbours_missing_reverse_pair_counterexample :
    (1, 2) ∈ ccFilteredEdges {((1:ℕ), (2:ℕ), (1:ℚ))} none
    ∧ (1, 2) ∈ ccNeighbours {1} {((1:ℕ), (2:ℕ), (1:ℚ))} none
    ∧ (2, 1) ∉ ccNeighbours {1} {((1:ℕ), (2:ℕ), (1:ℚ))} none := by
  decide

/-- Claim C3 (amended): provided both endpoints of every filtered edge belong
to the node set, the derived neighbour relation contains the self pair of
every node and both ordered pairs of every filtered edge, and is exactly
their union (the symmetric closure of the filtered edges plus all self
loops). -/
theorem neighbours_symmetric_closure (nodes : Finset ℕ)
    (edges : Finset (ℕ × ℕ × ℚ)) (threshold : Option ℚ)
    (hwf : ∀ p ∈ ccFilteredEdges edges threshold, p.1 ∈ nodes ∧ p.2 ∈ nodes) :
    (∀ n ∈ nodes, (n, n) ∈ ccNeighbours nodes edges threshold)
    ∧ (∀ p ∈ ccFilteredEdges edges threshold,
        (p.1, p.2) ∈ ccNeighbours nodes edges threshold ∧
        (p.2, p.1) ∈ ccNeighbours nodes edges threshold)
    ∧ ccNeighbours nodes edges threshold =
        nodes.image (fun n => (n, n)) ∪ ccFilteredEdges edges threshold ∪
          (ccFilteredEdges edges threshold).image (fun p => (p.2, p.1)) := by
  refine ⟨fun n hn => ccSelfLoop hn, ?_, ?_⟩
  · intro p hp
    constructor
    · exact mem_ccNeighbours.mpr ⟨(hwf p hp).1,
        Or.inl (mem_ccSplinkEdges.mpr (Or.inl (by rwa [show (p.1, p.2) = p from rfl])))⟩
    · exact mem_ccNeighbours.mpr ⟨(hwf p hp).2,
        Or.inr (mem_ccSplinkEdges.mpr (Or.inl (by rwa [show (p.1, p.2) = p from rfl])))⟩
  · apply Finset.Subset.antisymm
    · rintro ⟨a, b⟩ hab
      obtain ⟨ha, h | h⟩ := mem_ccNeighbours.mp hab
      · rcases mem_ccSplinkEdges.mp h with h | ⟨_, rfl⟩
        · exact Finset.mem_union_left _ (Finset.mem_union_right _ h)
        · exact Finset.mem_union_left _
            (Finset.mem_union_left _ (Finset.mem_image.mpr ⟨b, ha, rfl⟩))
      · rcases mem_ccSplinkEdges.mp h with h | ⟨hb, rfl⟩
        · exact Finset.mem_union_right _ (Finset.mem_image.mpr ⟨(b, a), h, rfl⟩)
        · exact Finset.mem_union_left _
            (Finset.mem_union_left _ (Finset.mem_image.mpr ⟨a, ha, rfl⟩))
    · rintro ⟨a, b⟩ hab
      rcases Finset.mem_union.mp hab with h | h
      · rcases Finset.mem_union.mp h with h | h
        · obtain ⟨n, hn, heq⟩ := Finset.mem_image.mp h
          obtain ⟨h1, h2⟩ := Prod.mk.injEq .. ▸ heq
          subst h1; subst h2
          exact ccSelfLoop hn
        · exact mem_ccNeighbours.mpr ⟨(hwf _ h).1,
            Or.inl (mem_ccSplinkEdges.mpr (Or.inl h))⟩
      · obtain ⟨p, hp, heq⟩ := Finset.mem_image.mp h
        obtain ⟨h1, h2⟩ := Prod.mk.injEq .. ▸ heq
        subst h1; subst h2
        exact mem_ccNeighbours.mpr ⟨(hwf p hp).2,
          Or.inr (mem_ccSplinkEdges.mpr (Or.inl (by
            rwa [show (p.1, p.2) = p from rfl])))⟩

theorem neighbours_symmetric_closure_witness :
    (∀ p ∈ ccFilteredEdges {((1:ℕ), (2:ℕ), (1:ℚ))} none,
      p.1 ∈ ({1, 2} : Finset ℕ) ∧ p.2 ∈ ({1, 2} : Finset ℕ))
    ∧ ccNeighbours {1, 2} {((1:ℕ), (2:ℕ), (1:ℚ))} none =
        ({1, 2} : Finset ℕ).image (fun n => (n, n)) ∪
          ccFilteredEdges {((1:ℕ), (2:ℕ), (1:ℚ))} none ∪
          (ccFilteredEdges {((1:ℕ), (2:ℕ), (1:ℚ))} none).image
            (fun p => (p.2, p.1)) :=
  ⟨by decide,
    (neighbours_symmetric_closure {1, 2} {((1:ℕ), (2:ℕ), (1:ℚ))} none
      (by decide)).2.2⟩

/-! ### Termination of the connected-components loop -/

theorem mem_ccCandidates {N : Finset (ℕ × ℕ)} {T : RTable} {n x : ℕ} :
    x ∈ ccCandidates N T n ↔
      (∃ m, (n, m) ∈ N ∧ m ∈ T.dom ∧ T.rmatch m = true ∧ T.rep m = x) ∨
      (n ∈ T.dom ∧ T.rmatch n = false ∧ x = T.rep n) := by
  unfold ccCandidates
  simp only [Finset.mem_union, Finset.mem_image, Finset.mem_filter, mem_nbrsOf]
  constructor
  · rintro (⟨m, ⟨hm, hd, hr⟩, hx⟩ | hx)
    · exact Or.inl ⟨m, hm, hd, hr, hx⟩
    · split at hx
      case isTrue h =>
        exact Or.inr ⟨h.1, by simpa using h.2, Finset.mem_singleton.mp hx⟩
      case isFalse h => simp at hx
  · rintro (⟨m, hm, hd, hr, hx⟩ | ⟨hd, hr, hx⟩)
    · exact Or.inl ⟨m, ⟨hm, hd, hr⟩, hx⟩
    · refine Or.inr ?_
      rw [if_pos ⟨hd, by simpa using hr⟩]
      exact Finset.mem_singleton.mpr hx

/-- The part of the loop invariant needed for termination: the remaining
rows are nodes, and a node no longer present (it was emitted inside a
stable cluster) has no neighbour still present. -/
structure CCInvW (nodes : Finset ℕ) (N : Finset (ℕ × ℕ)) (T : RTable) :
    Prop where
  dom_sub : T.dom ⊆ nodes
  removed : ∀ n ∈ nodes, n ∉ T.dom → ∀ m, (n, m) ∈ N → m ∉ T.dom

/-- One update keeps exactly the previous rows. -/
theorem ccStep_dom {nodes : Finset ℕ} {N : Finset (ℕ × ℕ)} {T : RTable}
    (hself : ∀ n ∈ nodes, (n, n) ∈ N)
    (hfst : ∀ a b, (a, b) ∈ N → a ∈ nodes)
    (hW : CCInvW nodes N T) : (ccStep N T).dom = T.dom := by
  apply Finset.Subset.antisymm
  · intro n hn
    have hn' : n ∈ ((N.image (fun e => e.1)) ∪ T.dom).filter
        (fun n => (ccCandidates N T n).Nonempty) := hn
    obtain ⟨hin, hne⟩ := Finset.mem_filter.mp hn'
    by_contra hnd
    have hn_nodes : n ∈ nodes := by
      rcases Finset.mem_union.mp hin with h | h
      · obtain ⟨e, he, heq⟩ := Finset.mem_image.mp h
        subst heq
        exact hfst e.1 e.2 (by rwa [Prod.mk.eta])
      · exact absurd h hnd
    obtain ⟨x, hx⟩ := hne
    rcases mem_ccCandidates.mp hx with ⟨m, hm, hmd, _, _⟩ | ⟨hd, _, _⟩
    · exact hW.removed n hn_nodes hnd m hm hmd
    · exact hnd hd
  · intro n hn
    show n ∈ ((N.image (fun e => e.1)) ∪ T.dom).filter
      (fun n => (ccCandidates N T n).Nonempty)
    refine Finset.mem_filter.mpr ⟨Finset.mem_union_right _ hn, ?_⟩
    by_cases hr : T.rmatch n = true
    · exact ⟨T.rep n,
        mem_ccCandidates.mpr (Or.inl ⟨n, hself n (hW.dom_sub hn), hn, hr, rfl⟩)⟩
    · exact ⟨T.rep n,
        mem_ccCandidates.mpr (Or.inr ⟨hn, by simpa using hr, rfl⟩)⟩

/-- A representative never increases across one update. -/
theorem ccStep_rep_le {nodes : Finset ℕ} {N : Finset (ℕ × ℕ)} {T : RTable}
    (hself : ∀ n ∈ nodes, (n, n) ∈ N) (hsub : T.dom ⊆ nodes) {n : ℕ}
    (hn : n ∈ T.dom) : (ccStep N T).rep n ≤ T.rep n := by
  show fminD (ccCandidates N T n) (T.rep n) ≤ T.rep n
  by_cases hr : T.rmatch n = true
  · exact fminD_le _
      (mem_ccCandidates.mpr (Or.inl ⟨n, hself n (hsub hn), hn, hr, rfl⟩))
  · exact fminD_le _
      (mem_ccCandidates.mpr (Or.inr ⟨hn, by simpa using hr, rfl⟩))

theorem ccStep_rmatch_true {N : Finset (ℕ × ℕ)} {T : RTable} {n : ℕ}
    (h : (ccStep N T).rmatch n = true) :
    n ∈ T.dom ∧ (ccStep N T).rep n ≠ T.rep n := by
  have h2 : (decide (n ∈ T.dom) && decide ((ccStep N T).rep n ≠ T.rep n))
      = true := h
  simpa using h2

theorem ccStep_rep_eq_of_rmatch_false {N : Finset (ℕ × ℕ)} {T : RTable}
    {n : ℕ} (hn : n ∈ T.dom) (h : (ccStep N T).rmatch n = false) :
    (ccStep N T).rep n = T.rep n := by
  have h2 : (decide (n ∈ T.dom) && decide ((ccStep N T).rep n ≠ T.rep n))
      = false := h
  simp only [Bool.and_eq_false_iff, decide_eq_false_iff_not] at h2
  rcases h2 with h2 | h2
  · exact absurd hn h2
  · simpa using h2

theorem ccThin_dom_subset (N : Finset (ℕ × ℕ)) (T : RTable) :
    (ccThin N T).dom ⊆ T.dom := Finset.filter_subset _ _

theorem mem_ccThin {N : Finset (ℕ × ℕ)} {T : RTable} {n : ℕ} :
    n ∈ (ccThin N T).dom ↔ n ∈ T.dom ∧ T.rep n ∉ ccStableReps N T :=
  Finset.mem_filter

/-- The member listing and the neighbour listing of a stable group agree;
consequently every neighbour of a node of a stable group has a row in the
same group. -/
theorem stable_group_absorbs {N : Finset (ℕ × ℕ)} {T : RTable} {n m : ℕ}
    (hn : n ∈ T.dom) (hstab : T.rep n ∈ ccStableReps N T)
    (hnm : (n, m) ∈ N) : m ∈ T.dom ∧ T.rep m = T.rep n := by
  have hEq := (Finset.mem_filter.mp hstab).2
  have hmem : n ∈ ccMembers T (T.rep n) := Finset.mem_filter.mpr ⟨hn, rfl⟩
  have hmnbr : m ∈ ccNbrSet N T (T.rep n) :=
    Finset.mem_biUnion.mpr ⟨n, hmem, mem_nbrsOf.mpr hnm⟩
  have hm : m ∈ ccMembers T (T.rep n) := hEq ▸ hmnbr
  exact ⟨(Finset.mem_filter.mp hm).1, (Finset.mem_filter.mp hm).2⟩

/-- The weak invariant survives one full iteration (update + thin). -/
theorem ccInvW_step_thin {nodes : Finset ℕ} {N : Finset (ℕ × ℕ)} {T : RTable}
    (hself : ∀ n ∈ nodes, (n, n) ∈ N)
    (hfst : ∀ a b, (a, b) ∈ N → a ∈ nodes)
    (hW : CCInvW nodes N T) : CCInvW nodes N (ccThin N (ccStep N T)) := by
  have hdom := ccStep_dom hself hfst hW
  constructor
  · intro n hn
    exact hW.dom_sub (hdom ▸ ccThin_dom_subset _ _ hn)
  · intro n hn hnd m hnm hmd
    by_cases hnd0 : n ∈ T.dom
    · have hn' : n ∈ (ccStep N T).dom := hdom ▸ hnd0
      have hstab : (ccStep N T).rep n ∈ ccStableReps N (ccStep N T) := by
        by_contra hnot
        exact hnd (mem_ccThin.mpr ⟨hn', hnot⟩)
      obtain ⟨hm1, hm2⟩ := stable_group_absorbs hn' hstab hnm
      have : m ∉ (ccThin N (ccStep N T)).dom := fun hc =>
        (mem_ccThin.mp hc).2 (hm2 ▸ hstab)
      exact this hmd
    · exact hW.removed n hn hnd0 m hnm (hdom ▸ ccThin_dom_subset _ _ hmd)

theorem ccMeasure_thin_le (N : Finset (ℕ × ℕ)) (T : RTable) :
    ccMeasure (ccThin N T) ≤ ccMeasure T :=
  Finset.sum_le_sum_of_subset (ccThin_dom_subset N T)

/-- While the loop keeps running, the measure strictly decreases. -/
theorem ccMeasure_step_lt {nodes : Finset ℕ} {N : Finset (ℕ × ℕ)} {T : RTable}
    (hself : ∀ n ∈ nodes, (n, n) ∈ N)
    (hfst : ∀ a b, (a, b) ∈ N → a ∈ nodes)
    (hW : CCInvW nodes N T)
    (hc : 0 < ccMatchCount (ccThin N (ccStep N T))) :
    ccMeasure (ccThin N (ccStep N T)) < ccMeasure T := by
  have hdom := ccStep_dom hself hfst hW
  obtain ⟨n, hn⟩ := Finset.card_pos.mp hc
  obtain ⟨hnd, hnr⟩ := Finset.mem_filter.mp hn
  have hnr' : (ccStep N T).rmatch n = true := hnr
  obtain ⟨hnT, hne⟩ := ccStep_rmatch_true hnr'
  have hlt : (ccStep N T).rep n < T.rep n :=
    lt_of_le_of_ne (ccStep_rep_le hself hW.dom_sub hnT) hne
  calc ccMeasure (ccThin N (ccStep N T)) ≤ ccMeasure (ccStep N T) :=
        ccMeasure_thin_le _ _
    _ < ccMeasure T := by
        unfold ccMeasure
        rw [hdom]
        apply Finset.sum_lt_sum
        · intro i hi
          exact Nat.add_le_add_right (ccStep_rep_le hself hW.dom_sub hi) 1
        · exact ⟨n, hnT, Nat.add_lt_add_right hlt 1⟩

/-- With enough fuel (any amount beyond the measure) the loop exits because
the rep-match count of the remaining rows has reached zero. -/
theorem ccLoop_count_zero {nodes : Finset ℕ} {N : Finset (ℕ × ℕ)}
    (hself : ∀ n ∈ nodes, (n, n) ∈ N)
    (hfst : ∀ a b, (a, b) ∈ N → a ∈ nodes) :
    ∀ (fuel : ℕ) (T : RTable) (acc : Finset (ℕ × ℕ)),
      CCInvW nodes N T → ccMeasure T < fuel →
      ccMatchCount (ccLoop N fuel T acc).1 = 0 := by
  intro fuel
  induction fuel with
  | zero =>
    intro T acc _ h
    exact absurd h (Nat.not_lt_zero _)
  | succ f ih =>
    intro T acc hW hm
    show ccMatchCount
      (if 0 < ccMatchCount (ccThin N (ccStep N T))
        then ccLoop N f (ccThin N (ccStep N T)) (acc ∪ ccEmitted N (ccStep N T))
        else (ccThin N (ccStep N T), acc ∪ ccEmitted N (ccStep N T))).1 = 0
    by_cases hc : 0 < ccMatchCount (ccThin N (ccStep N T))
    · rw [if_pos hc]
      exact ih _ _ (ccInvW_step_thin hself hfst hW)
        (lt_of_lt_of_le (ccMeasure_step_lt hself hfst hW hc)
          (Nat.lt_succ_iff.mp hm))
    · rw [if_neg hc]
      exact Nat.eq_zero_of_not_pos hc

theorem ccFirstIterReps_dom (N : Finset (ℕ × ℕ)) :
    (ccFirstIterReps N).dom = N.image (fun e => e.1) := Finset.inter_self _

/-- The weak invariant holds at loop entry: every node has a first-iteration
row. -/
theorem ccInvW_first (nodes : Finset ℕ) (N : Finset (ℕ × ℕ))
    (hself : ∀ n ∈ nodes, (n, n) ∈ N)
    (hfst : ∀ a b, (a, b) ∈ N → a ∈ nodes) :
    CCInvW nodes N (ccFirstIterReps N) := by
  constructor
  · intro n hn
    rw [ccFirstIterReps_dom] at hn
    obtain ⟨e, he, heq⟩ := Finset.mem_image.mp hn
    subst heq
    exact hfst e.1 e.2 (by rwa [Prod.mk.eta])
  · intro n hn hnd
    exfalso
    apply hnd
    rw [ccFirstIterReps_dom]
    exact Finset.mem_image.mpr ⟨(n, n), hself n hn, rfl⟩

/-- Claim C4 (amended): for every finite node and edge set the
connected-components fixed-point loop terminates — after finitely many
iterations the count of rows with rep_match = true in the remaining
representatives table reaches zero (each continuing iteration strictly
decreases the sum of (representative + 1) over the remaining rows); an
individual iteration, however, need not shrink the unstable set nor
strictly decrease the rep_match count. -/
theorem connected_components_loop_terminates (nodes : Finset ℕ)
    (edges : Finset (ℕ × ℕ × ℚ)) (threshold : Option ℚ) :
    ccMatchCount (ccFinalState nodes edges threshold) = 0 := by
  have hself : ∀ n ∈ nodes, (n, n) ∈ ccNeighbours nodes edges threshold :=
    fun n hn => ccSelfLoop hn
  have hfst : ∀ a b, (a, b) ∈ ccNeighbours nodes edges threshold → a ∈ nodes :=
    fun a b h => ccNeighbours_fst h
  exact ccLoop_count_zero hself hfst _ _ _
    (ccInvW_first nodes _ hself hfst) (Nat.lt_succ_self _)

set_option maxRecDepth 10000 in
/-- Claim C4 counterexample: on the path graph 0-3-4-5-6-1 the second loop
iteration leaves both the unstable row set (all six nodes) and the
rep_match count (one) unchanged while the loop keeps running, so it is not
true that each iteration either shrinks the unstable set or strictly
decreases the rep_match count.  (`ccLoop` with fuel k and the loop still
running returns the state after k iterations.) -/
theorem cc_iteration_not_monotone_counterexample :
    (ccLoop (ccNeighbours {0, 1, 3, 4, 5, 6}
        {(0, 3, 1), (3, 4, 1), (4, 5, 1), (5, 6, 1), (6, 1, 1)} none) 1
        (ccFirstIterReps (ccNeighbours {0, 1, 3, 4, 5, 6}
          {(0, 3, 1), (3, 4, 1), (4, 5, 1), (5, 6, 1), (6, 1, 1)} none)) ∅).1.dom
      = (ccLoop (ccNeighbours {0, 1, 3, 4, 5, 6}
        {(0, 3, 1), (3, 4, 1), (4, 5, 1), (5, 6, 1), (6, 1, 1)} none) 2
        (ccFirstIterReps (ccNeighbours {0, 1, 3, 4, 5, 6}
          {(0, 3, 1), (3, 4, 1), (4, 5, 1), (5, 6, 1), (6, 1, 1)} none)) ∅).1.dom
    ∧ ccMatchCount (ccLoop (ccNeighbours {0, 1, 3, 4, 5, 6}
        {(0, 3, 1), (3, 4, 1), (4, 5, 1), (5, 6, 1), (6, 1, 1)} none) 1
        (ccFirstIterReps (ccNeighbours {0, 1, 3, 4, 5, 6}
          {(0, 3, 1), (3, 4, 1), (4, 5, 1), (5, 6, 1), (6, 1, 1)} none)) ∅).1 = 1
    ∧ ccMatchCount (ccLoop (ccNeighbours {0, 1, 3, 4, 5, 6}
        {(0, 3, 1), (3, 4, 1), (4, 5, 1), (5, 6, 1), (6, 1, 1)} none) 2
        (ccFirstIterReps (ccNeighbours {0, 1, 3, 4, 5, 6}
          {(0, 3, 1), (3, 4, 1), (4, 5, 1), (5, 6, 1), (6, 1, 1)} none)) ∅).1 = 1
    := by decide

set_option maxRecDepth 10000 in
/-- Claim C1 counterexample: with node set {2} and the single edge (2, 1)
referencing a node id absent from the node set (no threshold), the
algorithm emits no cluster at all — node 2 appears in no output row, so
"every node appears" fails for an arbitrary edge set. -/
theorem solve_connected_components_dropped_node_counterexample :
    (2:ℕ) ∈ ({2} : Finset ℕ)
    ∧ solve_connected_components {2} {((2:ℕ), (1:ℕ), (1:ℚ))} none = ∅ := by
  decide

/-! ### Correctness of the connected-components output -/

theorem ccAdj_symm {edges : Finset (ℕ × ℕ × ℚ)} {threshold : Option ℚ}
    {a b : ℕ} (h : ccAdj edges threshold a b) : ccAdj edges threshold b a :=
  h.symm

theorem ccConnected_symm {edges : Finset (ℕ × ℕ × ℚ)} {threshold : Option ℚ}
    {a b : ℕ} (h : ccConnected edges threshold a b) :
    ccConnected edges threshold b a :=
  Relation.ReflTransGen.symmetric (fun _ _ hxy => ccAdj_symm hxy) h

/-- The component minimum is a member of the node set, reachable, and a
lower bound of everything reachable. -/
theorem ccComponentMin_spec {nodes : Finset ℕ} {edges : Finset (ℕ × ℕ × ℚ)}
    {threshold : Option ℚ} {n : ℕ} (hn : n ∈ nodes) :
    ccComponentMin nodes edges threshold n ∈ nodes
    ∧ ccConnected edges threshold n (ccComponentMin nodes edges threshold n)
    ∧ ∀ m ∈ nodes, ccConnected edges threshold n m →
        ccComponentMin nodes edges threshold n ≤ m := by
  have hne : {m : ℕ | m ∈ nodes ∧ ccConnected edges threshold n m}.Nonempty :=
    ⟨n, hn, Relation.ReflTransGen.refl⟩
  have hmem := Nat.sInf_mem hne
  exact ⟨hmem.1, hmem.2, fun m hm hr => Nat.sInf_le ⟨hm, hr⟩⟩

theorem ccComponentMin_le_self {nodes : Finset ℕ}
    {edges : Finset (ℕ × ℕ × ℚ)} {threshold : Option ℚ} {n : ℕ}
    (hn : n ∈ nodes) : ccComponentMin nodes edges threshold n ≤ n :=
  (ccComponentMin_spec hn).2.2 n hn Relation.ReflTransGen.refl

/-- Connected nodes have the same component minimum. -/
theorem ccComponentMin_congr {nodes : Finset ℕ} {edges : Finset (ℕ × ℕ × ℚ)}
    {threshold : Option ℚ} {a b : ℕ} (h : ccConnected edges threshold a b) :
    ccComponentMin nodes edges threshold a =
      ccComponentMin nodes edges threshold b := by
  unfold ccComponentMin
  congr 1
  ext m
  exact ⟨fun hm => ⟨hm.1, Relation.ReflTransGen.trans (ccConnected_symm h) hm.2⟩,
    fun hm => ⟨hm.1, Relation.ReflTransGen.trans h hm.2⟩⟩

/-- The properties of the derived neighbour relation that the correctness
proof uses; `ccNeighbours_ok` below establishes them for `ccNeighbours`
whenever every filtered edge has both endpoints in the node set. -/
structure CCNbrOk (nodes : Finset ℕ) (edges : Finset (ℕ × ℕ × ℚ))
    (threshold : Option ℚ) (N : Finset (ℕ × ℕ)) : Prop where
  self : ∀ n ∈ nodes, (n, n) ∈ N
  mem_fst : ∀ a b, (a, b) ∈ N → a ∈ nodes
  mem_snd : ∀ a b, (a, b) ∈ N → b ∈ nodes
  symm : ∀ a b, (a, b) ∈ N → (b, a) ∈ N
  adj_of : ∀ a b, (a, b) ∈ N → a = b ∨ ccAdj edges threshold a b
  of_adj : ∀ a b, ccAdj edges threshold a b → (a, b) ∈ N
  adj_nodes : ∀ a b, ccAdj edges threshold a b → a ∈ nodes ∧ b ∈ nodes

theorem ccNeighbours_ok (nodes : Finset ℕ) (edges : Finset (ℕ × ℕ × ℚ))
    (threshold : Option ℚ)
    (hwf : ∀ p ∈ ccFilteredEdges edges threshold, p.1 ∈ nodes ∧ p.2 ∈ nodes) :
    CCNbrOk nodes edges threshold (ccNeighbours nodes edges threshold) := by
  have hadj : ∀ a b, ccAdj edges threshold a b → a ∈ nodes ∧ b ∈ nodes := by
    intro a b h
    rcases h with h | h
    · exact ⟨(hwf (a, b) h).1, (hwf (a, b) h).2⟩
    · exact ⟨(hwf (b, a) h).2, (hwf (b, a) h).1⟩
  have hsnd : ∀ a b, (a, b) ∈ ccNeighbours nodes edges threshold → b ∈ nodes := by
    intro a b h
    obtain ⟨ha, h | h⟩ := mem_ccNeighbours.mp h
    · rcases mem_ccSplinkEdges.mp h with h | ⟨_, rfl⟩
      · exact (hwf (a, b) h).2
      · exact ha
    · rcases mem_ccSplinkEdges.mp h with h | ⟨hb, _⟩
      · exact (hwf (b, a) h).1
      · exact hb
  refine ⟨fun n hn => ccSelfLoop hn, fun a b h => ccNeighbours_fst h, hsnd,
    ?_, ?_, ?_, hadj⟩
  · intro a b h
    obtain ⟨ha, hor⟩ := mem_ccNeighbours.mp h
    exact mem_ccNeighbours.mpr ⟨hsnd a b h, hor.symm⟩
  · intro a b h
    obtain ⟨_, h | h⟩ := mem_ccNeighbours.mp h
    · rcases mem_ccSplinkEdges.mp h with h | ⟨_, rfl⟩
      · exact Or.inr (Or.inl h)
      · exact Or.inl rfl
    · rcases mem_ccSplinkEdges.mp h with h | ⟨_, heq⟩
      · exact Or.inr (Or.inr h)
      · exact Or.inl heq
  · intro a b h
    rcases h with h | h
    · exact mem_ccNeighbours.mpr ⟨(hwf (a, b) h).1,
        Or.inl (mem_ccSplinkEdges.mpr (Or.inl h))⟩
    · exact mem_ccNeighbours.mpr ⟨(hwf (b, a) h).2,
        Or.inr (mem_ccSplinkEdges.mpr (Or.inl h))⟩

/-- The node ids occurring on the left of an admissible neighbour relation
are exactly the node set. -/
theorem ccNbrOk_image_fst {nodes : Finset ℕ} {edges : Finset (ℕ × ℕ × ℚ)}
    {threshold : Option ℚ} {N : Finset (ℕ × ℕ)}
    (hN : CCNbrOk nodes edges threshold N) :
    N.image (fun e => e.1) = nodes := by
  apply Finset.Subset.antisymm
  · intro a ha
    obtain ⟨e, he, heq⟩ := Finset.mem_image.mp ha
    subst heq
    exact hN.mem_fst e.1 e.2 (by rwa [Prod.mk.eta])
  · intro n hn
    exact Finset.mem_image.mpr ⟨(n, n), hN.self n hn, rfl⟩

/-- The full loop invariant: the remaining rows are a union of whole
components, and representatives are reachable lower candidates that have
settled consistently wherever `rep_match` is false. -/
structure CCInv (nodes : Finset ℕ) (edges : Finset (ℕ × ℕ × ℚ))
    (threshold : Option ℚ) (N : Finset (ℕ × ℕ)) (T : RTable) : Prop where
  dom_sub : T.dom ⊆ nodes
  closed : ∀ n ∈ T.dom, ∀ m, (n, m) ∈ N → m ∈ T.dom
  rep_le : ∀ n ∈ T.dom, T.rep n ≤ n
  rep_mem : ∀ n ∈ T.dom, T.rep n ∈ nodes
  rep_reach : ∀ n ∈ T.dom, ccConnected edges threshold n (T.rep n)
  stab : ∀ n ∈ T.dom, ∀ m ∈ T.dom, (n, m) ∈ N → T.rmatch m = false →
    T.rep n ≤ T.rep m

theorem CCInv.toW {nodes : Finset ℕ} {edges : Finset (ℕ × ℕ × ℚ)}
    {threshold : Option ℚ} {N : Finset (ℕ × ℕ)} {T : RTable}
    (hN : CCNbrOk nodes edges threshold N)
    (hI : CCInv nodes edges threshold N T) : CCInvW nodes N T := by
  constructor
  · exact hI.dom_sub
  · intro n _ hnd m hnm hmd
    exact hnd (hI.closed m hmd n (hN.symm n m hnm))

theorem ccCandidates_nonempty {nodes : Finset ℕ} {N : Finset (ℕ × ℕ)}
    {T : RTable} (hself : ∀ n ∈ nodes, (n, n) ∈ N) (hsub : T.dom ⊆ nodes)
    {n : ℕ} (hn : n ∈ T.dom) : (ccCandidates N T n).Nonempty := by
  by_cases hr : T.rmatch n = true
  · exact ⟨T.rep n,
      mem_ccCandidates.mpr (Or.inl ⟨n, hself n (hsub hn), hn, hr, rfl⟩)⟩
  · exact ⟨T.rep n, mem_ccCandidates.mpr (Or.inr ⟨hn, by simpa using hr, rfl⟩)⟩

/-- The new representative is the old representative of some node of the
same component. -/
theorem ccStep_rep_reach {nodes : Finset ℕ} {edges : Finset (ℕ × ℕ × ℚ)}
    {threshold : Option ℚ} {N : Finset (ℕ × ℕ)} {T : RTable}
    (hN : CCNbrOk nodes edges threshold N) (hsub : T.dom ⊆ nodes) {n : ℕ}
    (hn : n ∈ T.dom) :
    ∃ m ∈ T.dom, ccConnected edges threshold n m ∧
      (ccStep N T).rep n = T.rep m := by
  have hne := ccCandidates_nonempty hN.self hsub hn
  have hmem := fminD_mem (T.rep n) hne
  rcases mem_ccCandidates.mp hmem with ⟨m, hnm, hmd, _, hrep⟩ | ⟨hd, _, hrep⟩
  · refine ⟨m, hmd, ?_, hrep.symm⟩
    rcases hN.adj_of n m hnm with h | h
    · exact h ▸ Relation.ReflTransGen.refl
    · exact Relation.ReflTransGen.single h
  · exact ⟨n, hd, Relation.ReflTransGen.refl, hrep⟩

/-- The full invariant survives the update. -/
theorem ccStep_inv {nodes : Finset ℕ} {edges : Finset (ℕ × ℕ × ℚ)}
    {threshold : Option ℚ} {N : Finset (ℕ × ℕ)} {T : RTable}
    (hN : CCNbrOk nodes edges threshold N)
    (hI : CCInv nodes edges threshold N T) :
    CCInv nodes edges threshold N (ccStep N T) := by
  have hdom := ccStep_dom hN.self hN.mem_fst (hI.toW hN)
  constructor
  · rw [hdom]
    exact hI.dom_sub
  · intro n hn m hnm
    rw [hdom] at hn ⊢
    exact hI.closed n hn m hnm
  · intro n hn
    rw [hdom] at hn
    exact le_trans (ccStep_rep_le hN.self hI.dom_sub hn) (hI.rep_le n hn)
  · intro n hn
    rw [hdom] at hn
    obtain ⟨m, hmd, _, heq⟩ := ccStep_rep_reach hN hI.dom_sub hn
    rw [heq]
    exact hI.rep_mem m hmd
  · intro n hn
    rw [hdom] at hn
    obtain ⟨m, hmd, hr, heq⟩ := ccStep_rep_reach hN hI.dom_sub hn
    rw [heq]
    exact Relation.ReflTransGen.trans hr (hI.rep_reach m hmd)
  · intro n hn m hm hnm hmf
    rw [hdom] at hn hm
    have hrepm : (ccStep N T).rep m = T.rep m :=
      ccStep_rep_eq_of_rmatch_false hm hmf
    by_cases hr : T.rmatch m = true
    · have hc : T.rep m ∈ ccCandidates N T n :=
        mem_ccCandidates.mpr (Or.inl ⟨m, hnm, hm, hr, rfl⟩)
      rw [hrepm]
      exact fminD_le (T.rep n) hc
    · have h1 := hI.stab n hn m hm hnm (by simpa using hr)
      rw [hrepm]
      exact le_trans (ccStep_rep_le hN.self hI.dom_sub hn) h1

/-- The full invariant survives removing the stable clusters. -/
theorem ccThin_inv {nodes : Finset ℕ} {edges : Finset (ℕ × ℕ × ℚ)}
    {threshold : Option ℚ} {N : Finset (ℕ × ℕ)} {T : RTable}
    (hN : CCNbrOk nodes edges threshold N)
    (hI : CCInv nodes edges threshold N T) :
    CCInv nodes edges threshold N (ccThin N T) := by
  constructor
  · exact fun n hn => hI.dom_sub (ccThin_dom_subset _ _ hn)
  · intro n hn m hnm
    obtain ⟨hnT, hns⟩ := mem_ccThin.mp hn
    have hmT : m ∈ T.dom := hI.closed n hnT m hnm
    refine mem_ccThin.mpr ⟨hmT, ?_⟩
    intro hms
    obtain ⟨_, heq⟩ := stable_group_absorbs hmT hms (hN.symm n m hnm)
    rw [← heq] at hms
    exact hns hms
  · exact fun n hn => hI.rep_le n (ccThin_dom_subset _ _ hn)
  · exact fun n hn => hI.rep_mem n (ccThin_dom_subset _ _ hn)
  · exact fun n hn => hI.rep_reach n (ccThin_dom_subset _ _ hn)
  · intro n hn m hm hnm hmf
    exact hI.stab n (ccThin_dom_subset _ _ hn) m (ccThin_dom_subset _ _ hm)
      hnm hmf

/-- A predicate that is transported along neighbour rows is transported
along connectivity. -/
theorem reach_stays {nodes : Finset ℕ} {edges : Finset (ℕ × ℕ × ℚ)}
    {threshold : Option ℚ} {N : Finset (ℕ × ℕ)} {P : ℕ → Prop}
    (hN : CCNbrOk nodes edges threshold N)
    (hP : ∀ x y, P x → (x, y) ∈ N → P y) {a b : ℕ}
    (hreach : ccConnected edges threshold a b) (ha : P a) : P b := by
  induction hreach with
  | refl => exact ha
  | tail _ hadj ih => exact hP _ _ ih (hN.of_adj _ _ hadj)

/-- When a node's representative group is stable, that representative is
exactly the minimum node id of the node's connected component. -/
theorem stable_rep_is_componentMin {nodes : Finset ℕ}
    {edges : Finset (ℕ × ℕ × ℚ)} {threshold : Option ℚ}
    {N : Finset (ℕ × ℕ)} {T : RTable}
    (hN : CCNbrOk nodes edges threshold N)
    (hI : CCInv nodes edges threshold N T) {n : ℕ} (hn : n ∈ T.dom)
    (hg : T.rep n ∈ ccStableReps N T) :
    ccComponentMin nodes edges threshold n = T.rep n := by
  have habsorb : ∀ x y, x ∈ ccMembers T (T.rep n) → (x, y) ∈ N →
      y ∈ ccMembers T (T.rep n) := by
    intro x y hx hxy
    obtain ⟨hxT, hxg⟩ := Finset.mem_filter.mp hx
    have hxs : T.rep x ∈ ccStableReps N T := by
      rw [hxg]
      exact hg
    obtain ⟨hyT, hyg⟩ := stable_group_absorbs hxT hxs hxy
    exact Finset.mem_filter.mpr ⟨hyT, hyg.trans hxg⟩
  have hnmem : n ∈ ccMembers T (T.rep n) := Finset.mem_filter.mpr ⟨hn, rfl⟩
  have hreach_mem : ∀ m, ccConnected edges threshold n m →
      m ∈ ccMembers T (T.rep n) := by
    intro m hm
    exact reach_stays hN habsorb hm hnmem
  apply le_antisymm
  · exact Nat.sInf_le ⟨hI.rep_mem n hn, hI.rep_reach n hn⟩
  · have hb : ∀ m, m ∈ nodes → ccConnected edges threshold n m →
        T.rep n ≤ m := by
      intro m _ hmr
      obtain ⟨hmT, hmg⟩ := Finset.mem_filter.mp (hreach_mem m hmr)
      rw [← hmg]
      exact hI.rep_le m hmT
    have hne : {m : ℕ | m ∈ nodes ∧ ccConnected edges threshold n m}.Nonempty :=
      ⟨n, hI.dom_sub hn, Relation.ReflTransGen.refl⟩
    have hmem := Nat.sInf_mem hne
    exact hb _ hmem.1 hmem.2

/-- The clusters emitted in one iteration carry exactly the component
minimum as cluster id. -/
theorem ccEmitted_spec {nodes : Finset ℕ} {edges : Finset (ℕ × ℕ × ℚ)}
    {threshold : Option ℚ} {N : Finset (ℕ × ℕ)} {T : RTable}
    (hN : CCNbrOk nodes edges threshold N)
    (hI : CCInv nodes edges threshold N T) :
    ccEmitted N T = (T.dom.filter (fun n => T.rep n ∈ ccStableReps N T)).image
      (fun n => (ccComponentMin nodes edges threshold n, n)) := by
  unfold ccEmitted
  apply Finset.image_congr
  intro n hn
  obtain ⟨hnd, hns⟩ := Finset.mem_filter.mp (Finset.mem_coe.mp hn)
  show (T.rep n, n) = (ccComponentMin nodes edges threshold n, n)
  rw [stable_rep_is_componentMin hN hI hnd hns]

/-- When the rep-match count of the thinned table reaches zero, nothing at
all remains: every surviving group would already have been stable. -/
theorem ccThin_dom_empty_of_count_zero {nodes : Finset ℕ}
    {edges : Finset (ℕ × ℕ × ℚ)} {threshold : Option ℚ}
    {N : Finset (ℕ × ℕ)} {T : RTable}
    (hN : CCNbrOk nodes edges threshold N)
    (hI : CCInv nodes edges threshold N T)
    (hc : ccMatchCount (ccThin N T) = 0) : (ccThin N T).dom = ∅ := by
  have hI2 := ccThin_inv hN hI
  have hfalse : ∀ k ∈ (ccThin N T).dom, T.rmatch k = false := by
    intro k hk
    have hempty : ((ccThin N T).dom.filter
        (fun n => (ccThin N T).rmatch n = true)) = ∅ :=
      Finset.card_eq_zero.mp hc
    by_contra hne
    have : k ∈ ((ccThin N T).dom.filter
        (fun n => (ccThin N T).rmatch n = true)) :=
      Finset.mem_filter.mpr ⟨hk, by simpa using hne⟩
    rw [hempty] at this
    exact absurd this (Finset.not_mem_empty k)
  by_contra hne
  obtain ⟨n, hn⟩ := Finset.nonempty_iff_ne_empty.mpr hne
  obtain ⟨hnT, hns⟩ := mem_ccThin.mp hn
  apply hns
  have hrepeq : ∀ k ∈ (ccThin N T).dom, ∀ m, (k, m) ∈ N →
      m ∈ (ccThin N T).dom ∧ T.rep m = T.rep k := by
    intro k hk m hkm
    have hmd := hI2.closed k hk m hkm
    refine ⟨hmd, le_antisymm ?_ ?_⟩
    · exact hI2.stab m hmd k hk (hN.symm k m hkm) (hfalse k hk)
    · exact hI2.stab k hk m hmd hkm (hfalse m hmd)
  refine Finset.mem_filter.mpr ⟨Finset.mem_image.mpr ⟨n, hnT, rfl⟩, ?_⟩
  apply Finset.Subset.antisymm
  · intro x hx
    obtain ⟨hxT, hxg⟩ := Finset.mem_filter.mp hx
    exact Finset.mem_biUnion.mpr ⟨x, Finset.mem_filter.mpr ⟨hxT, hxg⟩,
      mem_nbrsOf.mpr (hN.self x (hI.dom_sub hxT))⟩
  · intro x hx
    obtain ⟨k, hk, hxk⟩ := Finset.mem_biUnion.mp hx
    obtain ⟨hkT, hkg⟩ := Finset.mem_filter.mp hk
    have hkthin : k ∈ (ccThin N T).dom := by
      refine mem_ccThin.mpr ⟨hkT, ?_⟩
      intro hks
      rw [hkg] at hks
      exact hns hks
    obtain ⟨hxthin, hxrep⟩ := hrepeq k hkthin x (mem_nbrsOf.mp hxk)
    exact Finset.mem_filter.mpr ⟨(mem_ccThin.mp hxthin).1, hxrep.trans hkg⟩

/-- Running the loop on an invariant-preserving state, with fuel beyond the
measure, empties the table and emits exactly one `(component minimum, node)`
row per remaining node. -/
theorem ccLoop_spec {nodes : Finset ℕ} {edges : Finset (ℕ × ℕ × ℚ)}
    {threshold : Option ℚ} {N : Finset (ℕ × ℕ)}
    (hN : CCNbrOk nodes edges threshold N) :
    ∀ (fuel : ℕ) (T : RTable) (acc : Finset (ℕ × ℕ)),
      CCInv nodes edges threshold N T → ccMeasure T < fuel →
      ((ccLoop N fuel T acc).1.dom = ∅ ∧
        (ccLoop N fuel T acc).2 = acc ∪
          T.dom.image (fun n => (ccComponentMin nodes edges threshold n, n))) := by
  intro fuel
  induction fuel with
  | zero =>
    intro T acc _ h
    exact absurd h (Nat.not_lt_zero _)
  | succ f ih =>
    intro T acc hI hm
    have hW := CCInv.toW hN hI
    have hdom := ccStep_dom hN.self hN.mem_fst hW
    have hI' := ccStep_inv hN hI
    have hI'' := ccThin_inv hN hI'
    have hemit := ccEmitted_spec hN hI'
    have hthindom : (ccThin N (ccStep N T)).dom =
        (ccStep N T).dom.filter
          (fun n => ¬ (ccStep N T).rep n ∈ ccStableReps N (ccStep N T)) := rfl
    have hsplit : ((ccStep N T).dom.filter
          (fun n => (ccStep N T).rep n ∈ ccStableReps N (ccStep N T)))
        ∪ (ccThin N (ccStep N T)).dom = (ccStep N T).dom := by
      rw [hthindom]
      exact Finset.filter_union_filter_neg_eq _ _
    have hL : ccLoop N (f + 1) T acc =
        if 0 < ccMatchCount (ccThin N (ccStep N T))
          then ccLoop N f (ccThin N (ccStep N T))
            (acc ∪ ccEmitted N (ccStep N T))
          else (ccThin N (ccStep N T), acc ∪ ccEmitted N (ccStep N T)) := rfl
    rw [hL]
    by_cases hc : 0 < ccMatchCount (ccThin N (ccStep N T))
    · rw [if_pos hc]
      obtain ⟨h1, h2⟩ := ih (ccThin N (ccStep N T))
        (acc ∪ ccEmitted N (ccStep N T)) hI''
        (lt_of_lt_of_le (ccMeasure_step_lt hN.self hN.mem_fst hW hc)
          (Nat.lt_succ_iff.mp hm))
      refine ⟨h1, ?_⟩
      rw [h2, hemit, Finset.union_assoc, ← Finset.image_union, hsplit, hdom]
    · rw [if_neg hc]
      have hempty := ccThin_dom_empty_of_count_zero hN hI'
        (Nat.eq_zero_of_not_pos hc)
      refine ⟨hempty, ?_⟩
      have hall : ((ccStep N T).dom.filter
          (fun n => (ccStep N T).rep n ∈ ccStableReps N (ccStep N T)))
          = (ccStep N T).dom := by
        rw [← hsplit, hempty, Finset.union_empty]
        ext x
        simp only [Finset.mem_filter]
        tauto
      show acc ∪ ccEmitted N (ccStep N T) = _
      rw [hemit, hall, hdom]

theorem ccInitialReps_dom (N : Finset (ℕ × ℕ)) :
    (ccInitialReps N).dom = N.image (fun e => e.1) := rfl

theorem ccInitialReps_rep (N : Finset (ℕ × ℕ)) (n : ℕ) :
    (ccInitialReps N).rep n = fminD (nbrsOf N n) n := rfl

theorem ccFirstIterReps_rep (N : Finset (ℕ × ℕ)) (n : ℕ) :
    (ccFirstIterReps N).rep n = fminD
      (((nbrsOf N n).filter (fun m => m ∈ (ccInitialReps N).dom)).image
        (ccInitialReps N).rep) ((ccInitialReps N).rep n) := rfl

theorem ccFirstIterReps_rmatch (N : Finset (ℕ × ℕ)) (n : ℕ) :
    (ccFirstIterReps N).rmatch n =
      decide ((ccFirstIterReps N).rep n ≠ (ccInitialReps N).rep n) := rfl

/-- The invariant holds when the loop is entered. -/
theorem ccFirstIter_inv {nodes : Finset ℕ} {edges : Finset (ℕ × ℕ × ℚ)}
    {threshold : Option ℚ} {N : Finset (ℕ × ℕ)}
    (hN : CCNbrOk nodes edges threshold N) :
    CCInv nodes edges threshold N (ccFirstIterReps N) := by
  have himg := ccNbrOk_image_fst hN
  have hdom : (ccFirstIterReps N).dom = nodes := by
    rw [ccFirstIterReps_dom, himg]
  have hr0dom : (ccInitialReps N).dom = nodes := by
    rw [ccInitialReps_dom, himg]
  have hself_in : ∀ n ∈ nodes, (ccInitialReps N).rep n ∈
      ((nbrsOf N n).filter (fun m => m ∈ (ccInitialReps N).dom)).image
        (ccInitialReps N).rep := by
    intro n hn
    exact Finset.mem_image.mpr ⟨n, Finset.mem_filter.mpr
      ⟨mem_nbrsOf.mpr (hN.self n hn), by rw [hr0dom]; exact hn⟩, rfl⟩
  have hrep1_le : ∀ n ∈ nodes,
      (ccFirstIterReps N).rep n ≤ (ccInitialReps N).rep n := by
    intro n hn
    rw [ccFirstIterReps_rep]
    exact fminD_le _ (hself_in n hn)
  have hrep0_nbr : ∀ n ∈ nodes, (n, (ccInitialReps N).rep n) ∈ N := by
    intro n hn
    have hne : (nbrsOf N n).Nonempty := ⟨n, mem_nbrsOf.mpr (hN.self n hn)⟩
    rw [ccInitialReps_rep]
    exact mem_nbrsOf.mp (fminD_mem n hne)
  have hrep0_le : ∀ n ∈ nodes, (ccInitialReps N).rep n ≤ n := by
    intro n hn
    rw [ccInitialReps_rep]
    exact fminD_le n (mem_nbrsOf.mpr (hN.self n hn))
  have hstep : ∀ a b : ℕ, (a, b) ∈ N → ccConnected edges threshold a b := by
    intro a b hab
    rcases hN.adj_of a b hab with h | h
    · exact h ▸ Relation.ReflTransGen.refl
    · exact Relation.ReflTransGen.single h
  have hwitness : ∀ n ∈ nodes, ∃ m, (n, m) ∈ N ∧ m ∈ nodes ∧
      (ccFirstIterReps N).rep n = (ccInitialReps N).rep m := by
    intro n hn
    have hne : ((((nbrsOf N n).filter (fun m => m ∈ (ccInitialReps N).dom)).image
        (ccInitialReps N).rep)).Nonempty := ⟨_, hself_in n hn⟩
    have hmem := fminD_mem ((ccInitialReps N).rep n) hne
    obtain ⟨m, hmfil, heq⟩ := Finset.mem_image.mp hmem
    obtain ⟨hmnbr, hmdom⟩ := Finset.mem_filter.mp hmfil
    refine ⟨m, mem_nbrsOf.mp hmnbr, by rwa [hr0dom] at hmdom, ?_⟩
    rw [ccFirstIterReps_rep]
    exact heq.symm
  constructor
  · rw [hdom]
  · intro n hn m hnm
    rw [hdom] at hn ⊢
    exact hN.mem_snd n m hnm
  · intro n hn
    rw [hdom] at hn
    exact le_trans (hrep1_le n hn) (hrep0_le n hn)
  · intro n hn
    rw [hdom] at hn
    obtain ⟨m, _, hmn, heq⟩ := hwitness n hn
    rw [heq]
    exact hN.mem_snd m _ (hrep0_nbr m hmn)
  · intro n hn
    rw [hdom] at hn
    obtain ⟨m, hnm, hmn, heq⟩ := hwitness n hn
    rw [heq]
    exact Relation.ReflTransGen.trans (hstep n m hnm)
      (hstep m _ (hrep0_nbr m hmn))
  · intro n hn m hm hnm hmf
    rw [hdom] at hn hm
    have hmeq : (ccFirstIterReps N).rep m = (ccInitialReps N).rep m := by
      have h2 : decide ((ccFirstIterReps N).rep m ≠ (ccInitialReps N).rep m)
          = false := by
        rw [← ccFirstIterReps_rmatch]
        exact hmf
      simpa using h2
    rw [hmeq, ccFirstIterReps_rep]
    apply fminD_le
    exact Finset.mem_image.mpr ⟨m, Finset.mem_filter.mpr
      ⟨mem_nbrsOf.mpr hnm, by rw [hr0dom]; exact hm⟩, rfl⟩

/-- Claim C1 (amended): for every finite node set and edge set in which every
threshold-passing edge joins two members of the node set,
`solve_connected_components` (with optional threshold t) returns the cluster
assignment pairing every node with the minimum node id of its connected
component: two nodes share a cluster_id iff they are connected by a path of
edges whose match_probability is not below t (all edges when t is None),
every node appears (isolated nodes as singleton clusters), and each
cluster_id equals the minimum node_id among the cluster's members (the
cluster id is itself a member and a lower bound of the members). -/
theorem solve_connected_components_spec (nodes : Finset ℕ)
    (edges : Finset (ℕ × ℕ × ℚ)) (threshold : Option ℚ)
    (hwf : ∀ p ∈ ccFilteredEdges edges threshold, p.1 ∈ nodes ∧ p.2 ∈ nodes) :
    solve_connected_components nodes edges threshold =
      nodes.image (fun n => (ccComponentMin nodes edges threshold n, n))
    ∧ (∀ a ∈ nodes, ∀ b ∈ nodes,
        ((∃ c, (c, a) ∈ solve_connected_components nodes edges threshold ∧
            (c, b) ∈ solve_connected_components nodes edges threshold) ↔
          ccConnected edges threshold a b))
    ∧ (∀ n ∈ nodes, ∃ c,
        (c, n) ∈ solve_connected_components nodes edges threshold)
    ∧ (∀ c n, (c, n) ∈ solve_connected_components nodes edges threshold →
        n ∈ nodes ∧ c = ccComponentMin nodes edges threshold n
        ∧ (c, c) ∈ solve_connected_components nodes edges threshold
        ∧ ∀ m, (c, m) ∈ solve_connected_components nodes edges threshold →
            c ≤ m) := by
  have hN := ccNeighbours_ok nodes edges threshold hwf
  have hI := ccFirstIter_inv hN
  have hT1dom :
      (ccFirstIterReps (ccNeighbours nodes edges threshold)).dom = nodes := by
    rw [ccFirstIterReps_dom, ccNbrOk_image_fst hN]
  have hsolve : solve_connected_components nodes edges threshold =
      nodes.image (fun n => (ccComponentMin nodes edges threshold n, n)) := by
    have h := (ccLoop_spec hN
      (ccMeasure (ccFirstIterReps (ccNeighbours nodes edges threshold)) + 1)
      (ccFirstIterReps (ccNeighbours nodes edges threshold)) ∅ hI
      (Nat.lt_succ_self _)).2
    show (ccLoop (ccNeighbours nodes edges threshold)
      (ccMeasure (ccFirstIterReps (ccNeighbours nodes edges threshold)) + 1)
      (ccFirstIterReps (ccNeighbours nodes edges threshold)) ∅).2 = _
    rw [h, hT1dom, Finset.empty_union]
  have hmem : ∀ c n,
      (c, n) ∈ solve_connected_components nodes edges threshold ↔
      (n ∈ nodes ∧ c = ccComponentMin nodes edges threshold n) := by
    intro c n
    rw [hsolve]
    constructor
    · intro h
      obtain ⟨a, ha, heq⟩ := Finset.mem_image.mp h
      obtain ⟨h1, h2⟩ := Prod.mk.injEq .. ▸ heq
      subst h2
      exact ⟨ha, h1.symm⟩
    · rintro ⟨hn, rfl⟩
      exact Finset.mem_image.mpr ⟨n, hn, rfl⟩
  refine ⟨hsolve, ?_, ?_, ?_⟩
  · intro a ha b hb
    constructor
    · rintro ⟨c, hca, hcb⟩
      obtain ⟨_, hceq⟩ := (hmem c a).mp hca
      obtain ⟨_, hceq2⟩ := (hmem c b).mp hcb
      have h1 := (@ccComponentMin_spec nodes edges threshold a ha).2.1
      have h2 := (@ccComponentMin_spec nodes edges threshold b hb).2.1
      rw [← hceq] at h1
      rw [← hceq2] at h2
      exact Relation.ReflTransGen.trans h1 (ccConnected_symm h2)
    · intro hr
      exact ⟨ccComponentMin nodes edges threshold a,
        (hmem _ a).mpr ⟨ha, rfl⟩,
        (hmem _ b).mpr ⟨hb, ccComponentMin_congr hr⟩⟩
  · intro n hn
    exact ⟨_, (hmem _ n).mpr ⟨hn, rfl⟩⟩
  · intro c n h
    obtain ⟨hn, hc⟩ := (hmem c n).mp h
    have hcmem := (@ccComponentMin_spec nodes edges threshold n hn).1
    have hcreach := (@ccComponentMin_spec nodes edges threshold n hn).2.1
    refine ⟨hn, hc, ?_, ?_⟩
    · apply (hmem c c).mpr
      refine ⟨by rw [hc]; exact hcmem, ?_⟩
      rw [hc]
      exact ccComponentMin_congr hcreach
    · intro m hm
      obtain ⟨hmn, hceq⟩ := (hmem c m).mp hm
      rw [hceq]
      exact ccComponentMin_le_self hmn

theorem solve_connected_components_spec_witness :
    (∀ p ∈ ccFilteredEdges
        {((1:ℕ), (2:ℕ), (99:ℚ)), ((3:ℕ), (4:ℕ), (99:ℚ))}
        (some ((95:ℚ))),
      p.1 ∈ ({1, 2, 3, 4, 5} : Finset ℕ) ∧ p.2 ∈ ({1, 2, 3, 4, 5} : Finset ℕ))
    ∧ solve_connected_components {1, 2, 3, 4, 5}
        {((1:ℕ), (2:ℕ), (99:ℚ)), ((3:ℕ), (4:ℕ), (99:ℚ))}
        (some ((95:ℚ))) =
      ({1, 2, 3, 4, 5} : Finset ℕ).image
        (fun n => (ccComponentMin {1, 2, 3, 4, 5}
          {((1:ℕ), (2:ℕ), (99:ℚ)), ((3:ℕ), (4:ℕ), (99:ℚ))}
          (some ((95:ℚ))) n, n)) :=
  ⟨by decide,
    (solve_connected_components_spec {1, 2, 3, 4, 5}
      {((1:ℕ), (2:ℕ), (99:ℚ)), ((3:ℕ), (4:ℕ), (99:ℚ))}
      (some ((95:ℚ))) (by decide)).1⟩

end Splink
